import Mathlib

/-!
Verification of the `s3like` package (src/s3like/__init__.py).

The module packages named, typed outputs into one zip archive per category
("renderable" / "downloadable"), uploads each archive to a blob store under a
derived key, and reads them back, driven by a manifest.

Shallow embedding choices:
* Python values flowing through the untyped code are modelled by `PyVal`.
* Python `bytes` are modelled by `PyBytes`: either the UTF-8 encoding of a
  string (the result of `str.encode`; `bytes.decode` is its partial inverse,
  so `decode (utf8 s) = some s` models `s.encode().decode() == s`) or an
  opaque raw byte payload (pre-encoded binary data such as PNG content).
* `json.dumps` / `json.loads` are modelled by an executable JSON printer and
  parser over `PyVal` (integers for JSON numbers; floats are out of scope).
* `zipfile` archives are modelled as the ordered list of written members;
  `ZipFile.read` resolves a name to the last member written under it, which
  is how CPython's `zipfile` name lookup behaves for duplicate names.
* The blob store (`fs_gcsfs`) is an external collaborator and is modelled as
  a key/value association list holding archive contents.
* The marshmallow schemas are external shape validators; following the spec,
  a failed validation aborts the call before anything else happens.  In this
  typed embedding the checkable part of `LocalResult().load` /
  `RemoteResult().load` is the `validate.OneOf` media-type check.
* Exceptions are modelled with `Except`; an error value carries the blob
  store as it stood when the exception was raised.
-/

/-- Python `bytes` values, abstracted: `utf8 s` is the UTF-8 encoding of the
string `s` (as produced by `str.encode`), `raw bs` is an opaque byte payload
already in its final binary form. -/
inductive PyBytes where
  | utf8 (s : String)
  | raw (bs : List Nat)
  deriving DecidableEq

/-- Model of `bytes.decode()` (UTF-8): recovers the string an `utf8` payload
encodes; decoding an opaque raw payload is not modelled and fails. -/
def PyBytes.decode : PyBytes → Option String
  | .utf8 s => some s
  | .raw _ => Option.none

/-- Python values as they flow through the untyped source: `None`, booleans,
integers, strings, lists, (string-keyed, insertion-ordered) dicts and byte
strings.  JSON floats are outside the modelled value space. -/
inductive PyVal where
  | none
  | bool (b : Bool)
  | int (n : Int)
  | str (s : String)
  | list (xs : List PyVal)
  | dict (kvs : List (String × PyVal))
  | bytes (b : PyBytes)

mutual

def PyVal.beq : PyVal → PyVal → Bool
  | .none, .none => true
  | .bool a, .bool b => a == b
  | .int a, .int b => a == b
  | .str a, .str b => a == b
  | .bytes a, .bytes b => a == b
  | .list xs, .list ys => PyVal.beqList xs ys
  | .dict xs, .dict ys => PyVal.beqDict xs ys
  | _, _ => false

def PyVal.beqList : List PyVal → List PyVal → Bool
  | [], [] => true
  | x :: xs, y :: ys => PyVal.beq x y && PyVal.beqList xs ys
  | _, _ => false

def PyVal.beqDict : List (String × PyVal) → List (String × PyVal) → Bool
  | [], [] => true
  | (k, v) :: xs, (k', v') :: ys => k == k' && PyVal.beq v v' && PyVal.beqDict xs ys
  | _, _ => false

end

mutual

theorem PyVal.beq_iff : ∀ (a b : PyVal), PyVal.beq a b = true ↔ a = b
  | .none, b => by cases b <;> simp [PyVal.beq]
  | .bool a, b => by cases b <;> simp [PyVal.beq]
  | .int a, b => by cases b <;> simp [PyVal.beq]
  | .str a, b => by cases b <;> simp [PyVal.beq]
  | .bytes a, b => by cases b <;> simp [PyVal.beq]
  | .list xs, b => by
      cases b <;> simp [PyVal.beq]
      exact PyVal.beqList_iff xs _
  | .dict kvs, b => by
      cases b <;> simp [PyVal.beq]
      exact PyVal.beqDict_iff kvs _

theorem PyVal.beqList_iff : ∀ (xs ys : List PyVal), PyVal.beqList xs ys = true ↔ xs = ys
  | [], ys => by cases ys <;> simp [PyVal.beqList]
  | x :: xs, ys => by
      cases ys with
      | nil => simp [PyVal.beqList]
      | cons y ys => simp [PyVal.beqList, PyVal.beq_iff x y, PyVal.beqList_iff xs ys]

theorem PyVal.beqDict_iff : ∀ (xs ys : List (String × PyVal)),
    PyVal.beqDict xs ys = true ↔ xs = ys
  | [], ys => by cases ys <;> simp [PyVal.beqDict]
  | (k, v) :: xs, ys => by
      cases ys with
      | nil => simp [PyVal.beqDict]
      | cons y ys =>
        cases y with
        | mk k' v' =>
          simp [PyVal.beqDict, PyVal.beq_iff v v', PyVal.beqDict_iff xs ys, and_assoc]

end

instance : DecidableEq PyVal := fun a b => decidable_of_iff _ (PyVal.beq_iff a b)

/-- Keys of an association list are pairwise distinct (Python dicts cannot
hold the same key twice, so every `PyVal.dict` arising from a Python value
satisfies this). -/
def keysNodup : List (String × PyVal) → Bool
  | [] => true
  | (k, _) :: rest => rest.all (fun kv => !(kv.1 == k)) && keysNodup rest

mutual

/-- The value space the JSON serializer variant supports: JSON-compatible
values (`None`, booleans, integers, strings, sequences, string-keyed
mappings with distinct keys); byte strings are rejected by `json.dumps`. -/
def jsonable : PyVal → Bool
  | .none => true
  | .bool _ => true
  | .int _ => true
  | .str _ => true
  | .list xs => jsonableList xs
  | .dict kvs => keysNodup kvs && jsonableDict kvs
  | .bytes _ => false

def jsonableList : List PyVal → Bool
  | [] => true
  | x :: xs => jsonable x && jsonableList xs

def jsonableDict : List (String × PyVal) → Bool
  | [] => true
  | (_, v) :: kvs => jsonable v && jsonableDict kvs

end

/-- Python dict update `d[k] = v`: replaces the value at an existing key in
place (keeping the key's original position) or appends a new binding. -/
def pyDictUpdate : List (String × PyVal) → String → PyVal → List (String × PyVal)
  | [], k, v => [(k, v)]
  | (k', v') :: rest, k, v =>
    if k' = k then (k', v) :: rest else (k', v') :: pyDictUpdate rest k v

/-- Python dict construction from a pair sequence (as `json.loads` performs
for object members): later duplicate keys overwrite earlier ones in place. -/
def dictFromPairs (ps : List (String × PyVal)) : List (String × PyVal) :=
  ps.foldl (fun acc kv => pyDictUpdate acc kv.1 kv.2) []

/-! ### JSON printing, modelling `json.dumps` -/

/-- Decimal digit `d < 10` as a character. -/
def digitChar (d : Nat) : Char := Char.ofNat (48 + d)

/-- Little-endian decimal digits of `n`, with explicit fuel so that the
definition reduces by computation. -/
def natDigitsF : Nat → Nat → List Nat
  | 0, _ => []
  | fuel + 1, n => if n = 0 then [] else n % 10 :: natDigitsF fuel (n / 10)

/-- Little-endian decimal digits of `n` (`natDigitsF` with sufficient fuel). -/
def natDigits (n : Nat) : List Nat := natDigitsF n n

theorem natDigitsF_eq_digits : ∀ (fuel n : Nat), n ≤ fuel → natDigitsF fuel n = Nat.digits 10 n
  | 0, n, h => by
    have : n = 0 := Nat.le_zero.mp h
    simp [natDigitsF, this]
  | fuel + 1, n, h => by
    by_cases h0 : n = 0
    · simp [natDigitsF, h0]
    · rw [natDigitsF, if_neg h0,
        natDigitsF_eq_digits fuel (n / 10)
          (Nat.le_of_lt_succ (Nat.lt_of_lt_of_le (Nat.div_lt_self (Nat.pos_of_ne_zero h0) (by norm_num)) h)),
        Nat.digits_def' (by norm_num : (1:Nat) < 10) (Nat.pos_of_ne_zero h0)]

theorem natDigits_eq_digits (n : Nat) : natDigits n = Nat.digits 10 n :=
  natDigitsF_eq_digits n n le_rfl

/-- Decimal representation of a natural number, as Python `str` prints it. -/
def natChars (n : Nat) : List Char :=
  if n = 0 then ['0'] else (natDigits n).reverse.map digitChar

/-- Decimal representation of an integer, as Python `str` prints it. -/
def intChars (n : Int) : List Char :=
  if n < 0 then '-' :: natChars n.natAbs else natChars n.toNat

/-- Lowercase hexadecimal digit `d < 16` as a character. -/
def hexDigitChar (d : Nat) : Char :=
  Char.ofNat (if d < 10 then 48 + d else 87 + d)

/-- JSON string escaping of one character, as `json.dumps` performs it:
quote, backslash and the named control characters get two-character escapes,
the remaining control characters get a `\u00xx` escape, anything else is
emitted verbatim.  (The default `ensure_ascii` escaping of non-ASCII
characters is not modelled; it does not change any parsed-back value.) -/
def escapeChar (c : Char) : List Char :=
  if c = '"' then ['\\', '"']
  else if c = '\\' then ['\\', '\\']
  else if c = Char.ofNat 8 then ['\\', 'b']
  else if c = Char.ofNat 12 then ['\\', 'f']
  else if c = '\n' then ['\\', 'n']
  else if c = Char.ofNat 13 then ['\\', 'r']
  else if c = '\t' then ['\\', 't']
  else if c.toNat < 32 then
    ['\\', 'u', '0', '0', hexDigitChar (c.toNat / 16), hexDigitChar (c.toNat % 16)]
  else [c]

/-- JSON string escaping of a character sequence. -/
def escapeList : List Char → List Char
  | [] => []
  | c :: cs => escapeChar c ++ escapeList cs

/-- A JSON string literal: escaped content between double quotes. -/
def quoteStr (s : String) : List Char :=
  '"' :: escapeList s.data ++ ['"']

mutual

/-- Model of `json.dumps` producing the character sequence of the JSON text;
fails (Python `TypeError`) on byte strings.  Separators are the `json.dumps`
defaults `", "` and `": "`. -/
def dumpVal : PyVal → Option (List Char)
  | .none => some ['n', 'u', 'l', 'l']
  | .bool true => some ['t', 'r', 'u', 'e']
  | .bool false => some ['f', 'a', 'l', 's', 'e']
  | .int n => some (intChars n)
  | .str s => some (quoteStr s)
  | .list xs =>
    match dumpList xs with
    | some body => some ('[' :: body ++ [']'])
    | Option.none => Option.none
  | .dict kvs =>
    match dumpMembers kvs with
    | some body => some ('{' :: body ++ ['}'])
    | Option.none => Option.none
  | .bytes _ => Option.none

def dumpList : List PyVal → Option (List Char)
  | [] => some []
  | [x] => dumpVal x
  | x :: y :: rest =>
    match dumpVal x, dumpList (y :: rest) with
    | some dx, some dr => some (dx ++ ',' :: ' ' :: dr)
    | _, _ => Option.none

def dumpMembers : List (String × PyVal) → Option (List Char)
  | [] => some []
  | [(k, v)] =>
    match dumpVal v with
    | some dv => some (quoteStr k ++ ':' :: ' ' :: dv)
    | Option.none => Option.none
  | (k, v) :: m :: rest =>
    match dumpVal v, dumpMembers (m :: rest) with
    | some dv, some dr => some (quoteStr k ++ ':' :: ' ' :: dv ++ ',' :: ' ' :: dr)
    | _, _ => Option.none

end

/-- Model of `json.dumps(data)` as a Python string. -/
def dumps (v : PyVal) : Option String :=
  (dumpVal v).map fun cs => ⟨cs⟩

example : dumps (.dict [("a", .int 1)]) = some "\x7b\"a\": 1\x7d" := by decide
example : dumps (.list [.int (-3), .str "x", .bool true, .none]) =
    some "[-3, \"x\", true, null]" := by decide

/-! ### JSON parsing, modelling `json.loads` -/

/-- JSON whitespace characters (space, tab, newline, carriage return). -/
def isWsChar (c : Char) : Bool :=
  c == ' ' || c == Char.ofNat 9 || c == Char.ofNat 10 || c == Char.ofNat 13

/-- Drop leading JSON whitespace. -/
def skipWs : List Char → List Char
  | [] => []
  | c :: rest => if isWsChar c then skipWs rest else c :: rest

/-- Value of a decimal digit character. -/
def digitVal (c : Char) : Nat := c.toNat - 48

/-- Consume a maximal run of decimal digits, returning their values
most-significant first. -/
def parseDigits : List Char → List Nat × List Char
  | [] => ([], [])
  | c :: rest =>
    if c.isDigit then
      let p := parseDigits rest
      (digitVal c :: p.1, p.2)
    else ([], c :: rest)

/-- Parse a nonempty run of decimal digits as a natural number. -/
def parseNat (cs : List Char) : Option (Nat × List Char) :=
  match parseDigits cs with
  | ([], _) => Option.none
  | (ds, rest) => some (Nat.ofDigits 10 ds.reverse, rest)

/-- Value of a hexadecimal digit character (either case), if it is one. -/
def hexVal (c : Char) : Option Nat :=
  if 48 ≤ c.toNat ∧ c.toNat ≤ 57 then some (c.toNat - 48)
  else if 97 ≤ c.toNat ∧ c.toNat ≤ 102 then some (c.toNat - 87)
  else if 65 ≤ c.toNat ∧ c.toNat ≤ 70 then some (c.toNat - 55)
  else Option.none

/-- Resolution of a two-character JSON escape (other than `\uXXXX`). -/
def unescapeChar (c : Char) : Option Char :=
  if c = '"' then some '"'
  else if c = '\\' then some '\\'
  else if c = '/' then some '/'
  else if c = 'b' then some (Char.ofNat 8)
  else if c = 'f' then some (Char.ofNat 12)
  else if c = 'n' then some '\n'
  else if c = 'r' then some (Char.ofNat 13)
  else if c = 't' then some '\t'
  else Option.none

/-- Parse the body of a JSON string literal (after the opening quote) up to
and including the closing quote, resolving escapes.  Surrogate-pair
recombination is not modelled; a `\uXXXX` escape must be a scalar value. -/
def parseStrBody : List Char → Option (List Char × List Char)
  | [] => Option.none
  | c :: rest =>
    if c = '"' then some ([], rest)
    else if c = '\\' then
      match rest with
      | [] => Option.none
      | e :: rest2 =>
        if e = 'u' then
          match rest2 with
          | h1 :: h2 :: h3 :: h4 :: rest3 =>
            match hexVal h1, hexVal h2, hexVal h3, hexVal h4 with
            | some a, some b, some c3, some d =>
              let m := ((a * 16 + b) * 16 + c3) * 16 + d
              if m.isValidChar then
                (parseStrBody rest3).map fun p => (Char.ofNat m :: p.1, p.2)
              else Option.none
            | _, _, _, _ => Option.none
          | _ => Option.none
        else
          match unescapeChar e with
          | some u => (parseStrBody rest2).map fun p => (u :: p.1, p.2)
          | Option.none => Option.none
    else (parseStrBody rest).map fun p => (c :: p.1, p.2)

mutual

/-- Recursive-descent JSON value parser with fuel, modelling `json.loads`
on the value space of `PyVal` (array and object payloads, string escapes,
integers; floats are not modelled). -/
def parseVal : Nat → List Char → Option (PyVal × List Char)
  | 0, _ => Option.none
  | _ + 1, [] => Option.none
  | fuel + 1, c :: rest =>
    if c = 'n' then
      match rest with
      | 'u' :: 'l' :: 'l' :: r => some (.none, r)
      | _ => Option.none
    else if c = 't' then
      match rest with
      | 'r' :: 'u' :: 'e' :: r => some (.bool true, r)
      | _ => Option.none
    else if c = 'f' then
      match rest with
      | 'a' :: 'l' :: 's' :: 'e' :: r => some (.bool false, r)
      | _ => Option.none
    else if c = '"' then
      (parseStrBody rest).map fun p => (.str ⟨p.1⟩, p.2)
    else if c = '-' then
      (parseNat rest).map fun p => (.int (-(p.1 : Int)), p.2)
    else if c.isDigit then
      (parseNat (c :: rest)).map fun p => (.int (p.1 : Int), p.2)
    else if c = '[' then
      match skipWs rest with
      | [] => Option.none
      | d :: r =>
        if d = ']' then some (.list [], r)
        else (parseItems fuel (d :: r)).map fun p => (.list p.1, p.2)
    else if c = '{' then
      match skipWs rest with
      | [] => Option.none
      | d :: r =>
        if d = '}' then some (.dict [], r)
        else (parseMembers fuel (d :: r)).map fun p => (.dict (dictFromPairs p.1), p.2)
    else Option.none

/-- Parse the comma-separated items of a nonempty JSON array, consuming the
closing bracket. -/
def parseItems : Nat → List Char → Option (List PyVal × List Char)
  | 0, _ => Option.none
  | fuel + 1, cs =>
    match parseVal fuel cs with
    | some (v, rest) =>
      match skipWs rest with
      | [] => Option.none
      | d :: r =>
        if d = ',' then
          (parseItems fuel (skipWs r)).map fun p => (v :: p.1, p.2)
        else if d = ']' then some ([v], r)
        else Option.none
    | Option.none => Option.none

/-- Parse the comma-separated members of a nonempty JSON object, consuming
the closing brace. -/
def parseMembers : Nat → List Char → Option (List (String × PyVal) × List Char)
  | 0, _ => Option.none
  | fuel + 1, cs =>
    match cs with
    | '"' :: kr =>
      match parseStrBody kr with
      | some (kcs, rest) =>
        match skipWs rest with
        | ':' :: r =>
          match parseVal fuel (skipWs r) with
          | some (v, rest2) =>
            match skipWs rest2 with
            | [] => Option.none
            | d :: r2 =>
              if d = ',' then
                (parseMembers fuel (skipWs r2)).map fun p => ((⟨kcs⟩, v) :: p.1, p.2)
              else if d = '}' then some ([(⟨kcs⟩, v)], r2)
              else Option.none
          | Option.none => Option.none
        | _ => Option.none
      | Option.none => Option.none
    | _ => Option.none

end

/-- Model of `json.loads`: parse one JSON value; trailing content other than
whitespace is rejected. -/
def loads (s : String) : Option PyVal :=
  match parseVal (s.data.length + 1) s.data with
  | some (v, rest) => if skipWs rest = [] then some v else Option.none
  | Option.none => Option.none

example : loads "\x7b\"a\": [1, -2, \"x\"], \"b\": null\x7d" =
    some (.dict [("a", .list [.int 1, .int (-2), .str "x"]), ("b", .none)]) := by decide
example : (dumps (.dict [("k", .list [.bool false, .dict []])])).bind loads =
    some (.dict [("k", .list [.bool false, .dict []])]) := by decide

/-! ### Round-trip of the JSON codec -/

mutual

/-- Fuel needed by `parseVal` to parse the printed form of `v`. -/
def cost : PyVal → Nat
  | .list xs => 1 + costList xs
  | .dict kvs => 1 + costDict kvs
  | _ => 1

def costList : List PyVal → Nat
  | [] => 0
  | x :: xs => 1 + cost x + costList xs

def costDict : List (String × PyVal) → Nat
  | [] => 0
  | (_, v) :: kvs => 1 + cost v + costDict kvs

end

theorem cost_pos : ∀ v : PyVal, 1 ≤ cost v := by
  intro v
  cases v <;> simp [cost]

theorem digitChar_props : ∀ d, d < 10 →
    (digitChar d).isDigit = true ∧ digitVal (digitChar d) = d ∧
    digitChar d ≠ 'n' ∧ digitChar d ≠ 't' ∧ digitChar d ≠ 'f' ∧
    digitChar d ≠ '"' ∧ digitChar d ≠ '-' ∧
    isWsChar (digitChar d) = false ∧ digitChar d ≠ ']' ∧ digitChar d ≠ '}' := by
  decide

theorem hexVal_hexDigitChar : ∀ d, d < 16 → hexVal (hexDigitChar d) = some d := by
  decide

/-- Head test used to state where a maximal digit run stops. -/
def headIsDigit : List Char → Bool
  | [] => false
  | c :: _ => c.isDigit

theorem parseDigits_stop {rest : List Char} (h : headIsDigit rest = false) :
    parseDigits rest = ([], rest) := by
  cases rest with
  | nil => rfl
  | cons c t => simp only [headIsDigit] at h; simp [parseDigits, h]

theorem parseDigits_append : ∀ (ds : List Nat), (∀ d ∈ ds, d < 10) →
    ∀ {rest : List Char}, headIsDigit rest = false →
    parseDigits (ds.map digitChar ++ rest) = (ds, rest)
  | [], _, rest, h => parseDigits_stop h
  | d :: ds, hds, rest, h => by
    have hd := digitChar_props d (hds d (by simp))
    rw [List.map_cons, List.cons_append, parseDigits]
    simp only [hd.1, if_pos]
    rw [parseDigits_append ds (fun x hx => hds x (by simp [hx])) h]
    simp [hd.2.1]

theorem parseNat_natChars (n : Nat) {rest : List Char} (h : headIsDigit rest = false) :
    parseNat (natChars n ++ rest) = some (n, rest) := by
  by_cases h0 : n = 0
  · subst h0
    rw [natChars, if_pos rfl, parseNat, show ([('0' : Char)] = [(0 : Nat)].map digitChar) from rfl,
      parseDigits_append [0] (by simp) h]
    simp [Nat.ofDigits]
  · have hne : Nat.digits 10 n ≠ [] := Nat.digits_ne_nil_iff_ne_zero.mpr h0
    have hlt : ∀ d ∈ (Nat.digits 10 n).reverse, d < 10 := by
      intro d hd
      exact Nat.digits_lt_base (by norm_num) (List.mem_reverse.mp hd)
    rw [natChars, if_neg h0, natDigits_eq_digits, parseNat,
      parseDigits_append _ hlt h]
    have hrev : (Nat.digits 10 n).reverse ≠ [] := by simpa using hne
    match hrw : (Nat.digits 10 n).reverse, hrev with
    | d :: ds, _ =>
      simp only []
      rw [show (d :: ds).reverse = (Nat.digits 10 n) from by
        rw [← hrw, List.reverse_reverse]]
      simp [Nat.ofDigits_digits]

theorem parseStrBody_quote (rest : List Char) : parseStrBody ('"' :: rest) = some ([], rest) := by
  rw [parseStrBody.eq_def]
  rfl

theorem parseStrBody_esc {e u : Char} (he : e ≠ 'u') (hu : unescapeChar e = some u)
    (t : List Char) :
    parseStrBody ('\\' :: e :: t) = (parseStrBody t).map fun p => (u :: p.1, p.2) := by
  rw [parseStrBody.eq_def]
  simp [he, hu]

theorem parseStrBody_other {c : Char} (h1 : c ≠ '"') (h2 : c ≠ '\\') (t : List Char) :
    parseStrBody (c :: t) = (parseStrBody t).map fun p => (c :: p.1, p.2) := by
  rw [parseStrBody.eq_def]
  simp only [if_neg h1, if_neg h2]

theorem parseStrBody_u (a b : Char) {va vb : Nat} (ha : hexVal a = some va)
    (hb : hexVal b = some vb) (t : List Char) :
    parseStrBody ('\\' :: 'u' :: '0' :: '0' :: a :: b :: t) =
      if (va * 16 + vb).isValidChar then
        (parseStrBody t).map fun p => (Char.ofNat (va * 16 + vb) :: p.1, p.2)
      else Option.none := by
  rw [parseStrBody.eq_def]
  simp [ha, hb, show hexVal '0' = some 0 by decide]

theorem parseStrBody_escape : ∀ (cs rest : List Char),
    parseStrBody (escapeList cs ++ '"' :: rest) = some (cs, rest)
  | [], rest => by
    rw [escapeList, List.nil_append]
    exact parseStrBody_quote rest
  | c :: cs, rest => by
    have IH := parseStrBody_escape cs rest
    rw [escapeList, List.append_assoc]
    by_cases h1 : c = '"'
    · subst h1
      rw [show escapeChar '"' = ['\\', '"'] from rfl]
      simp only [List.cons_append, List.nil_append]
      rw [parseStrBody_esc (by decide) (by decide : unescapeChar '"' = some '"'), IH]
      rfl
    by_cases h2 : c = '\\'
    · subst h2
      rw [show escapeChar '\\' = ['\\', '\\'] from rfl]
      simp only [List.cons_append, List.nil_append]
      rw [parseStrBody_esc (by decide) (by decide : unescapeChar '\\' = some '\\'), IH]
      rfl
    by_cases h3 : c = Char.ofNat 8
    · subst h3
      rw [show escapeChar (Char.ofNat 8) = ['\\', 'b'] from by decide]
      simp only [List.cons_append, List.nil_append]
      rw [parseStrBody_esc (by decide) (by decide : unescapeChar 'b' = some (Char.ofNat 8)), IH]
      rfl
    by_cases h4 : c = Char.ofNat 12
    · subst h4
      rw [show escapeChar (Char.ofNat 12) = ['\\', 'f'] from by decide]
      simp only [List.cons_append, List.nil_append]
      rw [parseStrBody_esc (by decide) (by decide : unescapeChar 'f' = some (Char.ofNat 12)), IH]
      rfl
    by_cases h5 : c = '\n'
    · subst h5
      rw [show escapeChar '\n' = ['\\', 'n'] from by decide]
      simp only [List.cons_append, List.nil_append]
      rw [parseStrBody_esc (by decide) (by decide : unescapeChar 'n' = some '\n'), IH]
      rfl
    by_cases h6 : c = Char.ofNat 13
    · subst h6
      rw [show escapeChar (Char.ofNat 13) = ['\\', 'r'] from by decide]
      simp only [List.cons_append, List.nil_append]
      rw [parseStrBody_esc (by decide) (by decide : unescapeChar 'r' = some (Char.ofNat 13)), IH]
      rfl
    by_cases h7 : c = '\t'
    · subst h7
      rw [show escapeChar '\t' = ['\\', 't'] from by decide]
      simp only [List.cons_append, List.nil_append]
      rw [parseStrBody_esc (by decide) (by decide : unescapeChar 't' = some '\t'), IH]
      rfl
    by_cases h8 : c.toNat < 32
    · rw [escapeChar, if_neg h1, if_neg h2, if_neg h3, if_neg h4, if_neg h5, if_neg h6,
        if_neg h7, if_pos h8]
      have hdiv : c.toNat / 16 < 16 := by omega
      have hmod : c.toNat % 16 < 16 := by omega
      simp only [List.cons_append, List.nil_append]
      rw [parseStrBody_u _ _ (hexVal_hexDigitChar _ hdiv) (hexVal_hexDigitChar _ hmod)]
      have hm : c.toNat / 16 * 16 + c.toNat % 16 = c.toNat := by omega
      have hvalid : (c.toNat / 16 * 16 + c.toNat % 16).isValidChar := by
        rw [hm]; exact Or.inl (by omega)
      rw [if_pos hvalid, IH, hm, Char.ofNat_toNat]
      rfl
    · rw [escapeChar, if_neg h1, if_neg h2, if_neg h3, if_neg h4, if_neg h5, if_neg h6,
        if_neg h7, if_neg h8]
      simp only [List.cons_append, List.nil_append]
      rw [parseStrBody_other h1 h2, IH]
      rfl

theorem skipWs_head {c : Char} (h : isWsChar c = false) (t : List Char) :
    skipWs (c :: t) = c :: t := by
  simp [skipWs, h]

theorem skipWs_space (t : List Char) : skipWs (' ' :: t) = skipWs t := by
  simp [skipWs, show isWsChar ' ' = true by decide]

theorem natChars_head (n : Nat) : ∃ d tl, d < 10 ∧ natChars n = digitChar d :: tl := by
  by_cases h0 : n = 0
  · exact ⟨0, [], by norm_num, by rw [h0]; decide⟩
  · have hne : (Nat.digits 10 n).reverse ≠ [] := by
      simpa using Nat.digits_ne_nil_iff_ne_zero.mpr h0
    match hrw : (Nat.digits 10 n).reverse, hne with
    | d :: ds, _ =>
      refine ⟨d, ds.map digitChar, ?_, ?_⟩
      · exact Nat.digits_lt_base (by norm_num)
          (List.mem_reverse.mp (by rw [hrw]; exact List.mem_cons_self d ds))
      · rw [natChars, if_neg h0, natDigits_eq_digits, hrw, List.map_cons]

theorem dumpVal_head : ∀ {v : PyVal} {cs : List Char}, dumpVal v = some cs →
    ∃ c tl, cs = c :: tl ∧ isWsChar c = false ∧ c ≠ ']' ∧ c ≠ '}' := by
  intro v cs h
  cases v with
  | none =>
    exact ⟨'n', _, by simpa [dumpVal] using h.symm, by decide, by decide, by decide⟩
  | bool b =>
    cases b with
    | true => exact ⟨'t', _, by simpa [dumpVal] using h.symm, by decide, by decide, by decide⟩
    | false => exact ⟨'f', _, by simpa [dumpVal] using h.symm, by decide, by decide, by decide⟩
  | int n =>
    rw [dumpVal] at h
    by_cases hn : n < 0
    · exact ⟨'-', _, by simpa [intChars, hn] using h.symm, by decide, by decide, by decide⟩
    · obtain ⟨d, tl, hd, htl⟩ := natChars_head n.toNat
      have hp := digitChar_props d hd
      refine ⟨digitChar d, tl, ?_, hp.2.2.2.2.2.2.2.1, hp.2.2.2.2.2.2.2.2.1, hp.2.2.2.2.2.2.2.2.2⟩
      rw [← Option.some_inj, ← h, intChars, if_neg hn, htl]
  | str s =>
    exact ⟨'"', _, by simpa [dumpVal, quoteStr] using h.symm, by decide, by decide, by decide⟩
  | list xs =>
    rw [dumpVal] at h
    match hb : dumpList xs with
    | some body => rw [hb] at h; exact ⟨'[', _, by simpa using h.symm, by decide, by decide, by decide⟩
    | Option.none => rw [hb] at h; cases h
  | dict kvs =>
    rw [dumpVal] at h
    match hb : dumpMembers kvs with
    | some body => rw [hb] at h; exact ⟨'{', _, by simpa using h.symm, by decide, by decide, by decide⟩
    | Option.none => rw [hb] at h; cases h
  | bytes b => cases h

theorem dumpList_head : ∀ {x : PyVal} {xs : List PyVal} {cs : List Char},
    dumpList (x :: xs) = some cs →
    ∃ c tl, cs = c :: tl ∧ isWsChar c = false ∧ c ≠ ']' ∧ c ≠ '}' := by
  intro x xs cs h
  cases xs with
  | nil => exact dumpVal_head (by simpa [dumpList] using h)
  | cons y ys =>
    rw [dumpList] at h
    match hx : dumpVal x, hr : dumpList (y :: ys) with
    | some dx, some dr =>
      rw [hx, hr] at h
      obtain ⟨c, tl, hdx, hws, h1, h2⟩ := dumpVal_head hx
      exact ⟨c, tl ++ ',' :: ' ' :: dr, by rw [← Option.some_inj, ← h, hdx]; simp, hws, h1, h2⟩
    | some dx, Option.none => rw [hx, hr] at h; cases h
    | Option.none, _ => rw [hx] at h; cases h

theorem dumpMembers_head : ∀ {k : String} {v : PyVal} {kvs : List (String × PyVal)}
    {cs : List Char}, dumpMembers ((k, v) :: kvs) = some cs → ∃ tl, cs = '"' :: tl := by
  intro k v kvs cs h
  cases kvs with
  | nil =>
    rw [dumpMembers] at h
    match hv : dumpVal v with
    | some dv => rw [hv] at h; exact ⟨_, by simpa [quoteStr] using h.symm⟩
    | Option.none => rw [hv] at h; cases h
  | cons m rest =>
    rw [dumpMembers] at h
    match hv : dumpVal v, hr : dumpMembers (m :: rest) with
    | some dv, some dr => rw [hv, hr] at h; exact ⟨_, by simpa [quoteStr] using h.symm⟩
    | some dv, Option.none => rw [hv, hr] at h; cases h
    | Option.none, _ => rw [hv] at h; cases h

theorem pyDictUpdate_append : ∀ (acc : List (String × PyVal)) {k : String} (v : PyVal),
    acc.all (fun kv => !(kv.1 == k)) = true → pyDictUpdate acc k v = acc ++ [(k, v)]
  | [], k, v, _ => rfl
  | (k', v') :: acc, k, v, h => by
    simp only [List.all_cons, Bool.and_eq_true, bne_iff_ne, ne_eq] at h
    rw [pyDictUpdate, if_neg (by simpa using h.1),
      pyDictUpdate_append acc v (by simpa using h.2)]
    rfl

theorem dictFoldl_append : ∀ (ps acc : List (String × PyVal)), keysNodup ps = true →
    (∀ kv ∈ ps, acc.all (fun kv' => !(kv'.1 == kv.1)) = true) →
    List.foldl (fun acc kv => pyDictUpdate acc kv.1 kv.2) acc ps = acc ++ ps
  | [], acc, _, _ => by simp
  | (k, v) :: ps, acc, hnd, hdisj => by
    rw [keysNodup, Bool.and_eq_true] at hnd
    rw [List.foldl_cons]
    simp only []
    rw [pyDictUpdate_append acc v (hdisj (k, v) (by simp)),
      dictFoldl_append ps (acc ++ [(k, v)]) hnd.2 ?_]
    · simp
    · intro kv hkv
      rw [List.all_append]
      refine Bool.and_eq_true_iff.mpr ⟨hdisj kv (by simp [hkv]), ?_⟩
      have := List.all_eq_true.mp hnd.1 kv hkv
      simp only [Bool.not_eq_eq_eq_not, Bool.not_true, beq_eq_false_iff_ne, ne_eq] at this
      simp only [List.all_cons, List.all_nil, Bool.and_true, Bool.not_eq_eq_eq_not,
        Bool.not_true, beq_eq_false_iff_ne, ne_eq]
      exact fun hh => this hh.symm

theorem dictFromPairs_self {kvs : List (String × PyVal)} (h : keysNodup kvs = true) :
    dictFromPairs kvs = kvs := by
  rw [dictFromPairs, dictFoldl_append kvs [] h (by intro kv _; rfl)]
  rfl

mutual

theorem cost_le_len : ∀ (v : PyVal) (cs : List Char), dumpVal v = some cs → cost v ≤ cs.length
  | .none, cs, h => by
    rw [show cs = ['n', 'u', 'l', 'l'] from by simpa [dumpVal] using h.symm]
    simp [cost]
  | .bool b, cs, h => by
    cases b
    · rw [show cs = ['f', 'a', 'l', 's', 'e'] from by simpa [dumpVal] using h.symm]
      simp [cost]
    · rw [show cs = ['t', 'r', 'u', 'e'] from by simpa [dumpVal] using h.symm]
      simp [cost]
  | .int n, cs, h => by
    obtain ⟨c, tl, hcs, _⟩ := dumpVal_head h
    rw [hcs]
    simp [cost]
  | .str s, cs, h => by
    obtain ⟨c, tl, hcs, _⟩ := dumpVal_head h
    rw [hcs]
    simp [cost]
  | .list xs, cs, h => by
    rw [dumpVal] at h
    match hb : dumpList xs with
    | some body =>
      rw [hb] at h
      have := costList_le xs body hb
      rw [← Option.some_inj.mp h]
      simp only [cost, List.length_cons, List.length_append, List.length_nil]
      omega
    | Option.none => rw [hb] at h; cases h
  | .dict kvs, cs, h => by
    rw [dumpVal] at h
    match hb : dumpMembers kvs with
    | some body =>
      rw [hb] at h
      have := costDict_le kvs body hb
      rw [← Option.some_inj.mp h]
      simp only [cost, List.length_cons, List.length_append, List.length_nil]
      omega
    | Option.none => rw [hb] at h; cases h
  | .bytes b, cs, h => by cases h

theorem costList_le : ∀ (xs : List PyVal) (cs : List Char),
    dumpList xs = some cs → costList xs ≤ cs.length + 1
  | [], cs, h => by simp [costList]
  | [x], cs, h => by
    have := cost_le_len x cs (by simpa [dumpList] using h)
    simp only [costList]
    omega
  | x :: y :: ys, cs, h => by
    rw [dumpList] at h
    match hx : dumpVal x, hr : dumpList (y :: ys) with
    | some dx, some dr =>
      rw [hx, hr] at h
      have h1 := cost_le_len x dx hx
      have h2 := costList_le (y :: ys) dr hr
      rw [← Option.some_inj.mp h]
      rw [show costList (x :: y :: ys) = 1 + cost x + costList (y :: ys) from rfl]
      simp only [List.length_append, List.length_cons]
      omega
    | some dx, Option.none => rw [hx, hr] at h; cases h
    | Option.none, _ => rw [hx] at h; cases h

theorem costDict_le : ∀ (kvs : List (String × PyVal)) (cs : List Char),
    dumpMembers kvs = some cs → costDict kvs ≤ cs.length + 1
  | [], cs, h => by simp [costDict]
  | [(k, v)], cs, h => by
    rw [dumpMembers] at h
    match hv : dumpVal v with
    | some dv =>
      rw [hv] at h
      have := cost_le_len v dv hv
      rw [← Option.some_inj.mp h]
      simp only [costDict, List.length_append, List.length_cons]
      omega
    | Option.none => rw [hv] at h; cases h
  | (k, v) :: m :: rest, cs, h => by
    rw [dumpMembers] at h
    match hv : dumpVal v, hr : dumpMembers (m :: rest) with
    | some dv, some dr =>
      rw [hv, hr] at h
      have h1 := cost_le_len v dv hv
      have h2 := costDict_le (m :: rest) dr hr
      rw [← Option.some_inj.mp h]
      rw [show costDict ((k, v) :: m :: rest) = 1 + cost v + costDict (m :: rest) from rfl]
      simp only [List.length_append, List.length_cons]
      omega
    | some dv, Option.none => rw [hv, hr] at h; cases h
    | Option.none, _ => rw [hv] at h; cases h

end

/-- The printed forms place a value only before `,`, `]`, `}` or the end of
input, which is what lets the greedy number parser stop correctly. -/
def headDelim : List Char → Bool
  | [] => true
  | c :: _ => c == ',' || c == ']' || c == '}'

theorem headDelim_notDigit : ∀ {rest : List Char}, headDelim rest = true → headIsDigit rest = false
  | [], _ => rfl
  | c :: t, h => by
    simp only [headDelim, Bool.or_eq_true, beq_iff_eq] at h
    simp only [headIsDigit]
    rcases h with (rfl | rfl) | rfl <;> decide

theorem parseVal_null (f : Nat) (r : List Char) :
    parseVal (f + 1) ('n' :: 'u' :: 'l' :: 'l' :: r) = some (.none, r) := by
  rw [parseVal.eq_def]
  rfl

theorem parseVal_true (f : Nat) (r : List Char) :
    parseVal (f + 1) ('t' :: 'r' :: 'u' :: 'e' :: r) = some (.bool true, r) := by
  rw [parseVal.eq_def]
  rfl

theorem parseVal_false (f : Nat) (r : List Char) :
    parseVal (f + 1) ('f' :: 'a' :: 'l' :: 's' :: 'e' :: r) = some (.bool false, r) := by
  rw [parseVal.eq_def]
  rfl

theorem parseVal_quote (f : Nat) (r : List Char) :
    parseVal (f + 1) ('"' :: r) = (parseStrBody r).map fun p => (.str ⟨p.1⟩, p.2) := by
  rw [parseVal.eq_def]
  rfl

theorem parseVal_neg (f : Nat) (r : List Char) :
    parseVal (f + 1) ('-' :: r) = (parseNat r).map fun p => (.int (-(p.1 : Int)), p.2) := by
  rw [parseVal.eq_def]
  rfl

theorem parseVal_digit {c : Char} (hc : c.isDigit = true) (f : Nat) (r : List Char) :
    parseVal (f + 1) (c :: r) = (parseNat (c :: r)).map fun p => (.int (p.1 : Int), p.2) := by
  have h1 : c ≠ 'n' := fun h => absurd hc (by rw [h]; decide)
  have h2 : c ≠ 't' := fun h => absurd hc (by rw [h]; decide)
  have h3 : c ≠ 'f' := fun h => absurd hc (by rw [h]; decide)
  have h4 : c ≠ '"' := fun h => absurd hc (by rw [h]; decide)
  have h5 : c ≠ '-' := fun h => absurd hc (by rw [h]; decide)
  rw [parseVal.eq_def]
  simp only [if_neg h1, if_neg h2, if_neg h3, if_neg h4, if_neg h5, if_pos hc]

theorem parseVal_lbracket (f : Nat) (r : List Char) :
    parseVal (f + 1) ('[' :: r) =
      match skipWs r with
      | [] => Option.none
      | d :: t =>
        if d = ']' then some (.list [], t)
        else (parseItems f (d :: t)).map fun p => (.list p.1, p.2) := by
  rw [parseVal.eq_def]
  rfl

theorem parseVal_lbrace (f : Nat) (r : List Char) :
    parseVal (f + 1) ('{' :: r) =
      match skipWs r with
      | [] => Option.none
      | d :: t =>
        if d = '}' then some (.dict [], t)
        else (parseMembers f (d :: t)).map fun p => (.dict (dictFromPairs p.1), p.2) := by
  rw [parseVal.eq_def]
  rfl

theorem parseItems_step (f : Nat) (cs : List Char) :
    parseItems (f + 1) cs =
      match parseVal f cs with
      | some (v, rest) =>
        match skipWs rest with
        | [] => Option.none
        | d :: r =>
          if d = ',' then (parseItems f (skipWs r)).map fun p => (v :: p.1, p.2)
          else if d = ']' then some ([v], r)
          else Option.none
      | Option.none => Option.none := by
  rw [parseItems.eq_def]

theorem parseMembers_step (f : Nat) (cs : List Char) :
    parseMembers (f + 1) cs =
      match cs with
      | '"' :: kr =>
        match parseStrBody kr with
        | some (kcs, rest) =>
          match skipWs rest with
          | ':' :: r =>
            match parseVal f (skipWs r) with
            | some (v, rest2) =>
              match skipWs rest2 with
              | [] => Option.none
              | d :: r2 =>
                if d = ',' then
                  (parseMembers f (skipWs r2)).map fun p => ((⟨kcs⟩, v) :: p.1, p.2)
                else if d = '}' then some ([(⟨kcs⟩, v)], r2)
                else Option.none
            | Option.none => Option.none
          | _ => Option.none
        | Option.none => Option.none
      | _ => Option.none := by
  rw [parseMembers.eq_def]
theorem parseVal_list_nil {r t : List Char} (f : Nat) (hsk : skipWs r = ']' :: t) :
    parseVal (f + 1) ('[' :: r) = some (.list [], t) := by
  rw [parseVal_lbracket, hsk]
  rfl

theorem parseVal_list_cons {d : Char} {r t : List Char} (f : Nat)
    (hsk : skipWs r = d :: t) (hne : d ≠ ']') :
    parseVal (f + 1) ('[' :: r) = (parseItems f (d :: t)).map fun p => (.list p.1, p.2) := by
  rw [parseVal_lbracket, hsk]
  simp only [if_neg hne]

theorem parseVal_dict_nil {r t : List Char} (f : Nat) (hsk : skipWs r = '}' :: t) :
    parseVal (f + 1) ('{' :: r) = some (.dict [], t) := by
  rw [parseVal_lbrace, hsk]
  rfl

theorem parseVal_dict_cons {d : Char} {r t : List Char} (f : Nat)
    (hsk : skipWs r = d :: t) (hne : d ≠ '}') :
    parseVal (f + 1) ('{' :: r) =
      (parseMembers f (d :: t)).map fun p => (.dict (dictFromPairs p.1), p.2) := by
  rw [parseVal_lbrace, hsk]
  simp only [if_neg hne]

theorem parseItems_comma {f : Nat} {cs rest r : List Char} {v : PyVal}
    (hv : parseVal f cs = some (v, rest)) (hsk : skipWs rest = ',' :: r) :
    parseItems (f + 1) cs = (parseItems f (skipWs r)).map fun p => (v :: p.1, p.2) := by
  rw [parseItems_step, hv]
  simp only [hsk]
  rfl

theorem parseItems_close {f : Nat} {cs rest r : List Char} {v : PyVal}
    (hv : parseVal f cs = some (v, rest)) (hsk : skipWs rest = ']' :: r) :
    parseItems (f + 1) cs = some ([v], r) := by
  rw [parseItems_step, hv]
  simp only [hsk]
  rfl

theorem parseMembers_comma {f : Nat} {kr rest r rest2 r2 : List Char} {kcs : List Char} {v : PyVal}
    (hk : parseStrBody kr = some (kcs, rest)) (h1 : skipWs rest = ':' :: r)
    (hv : parseVal f (skipWs r) = some (v, rest2)) (h2 : skipWs rest2 = ',' :: r2) :
    parseMembers (f + 1) ('"' :: kr) =
      (parseMembers f (skipWs r2)).map fun p => ((⟨kcs⟩, v) :: p.1, p.2) := by
  rw [parseMembers_step]
  simp only [hk, h1, hv, h2]
  rfl

theorem parseMembers_close {f : Nat} {kr rest r rest2 r2 : List Char} {kcs : List Char} {v : PyVal}
    (hk : parseStrBody kr = some (kcs, rest)) (h1 : skipWs rest = ':' :: r)
    (hv : parseVal f (skipWs r) = some (v, rest2)) (h2 : skipWs rest2 = '}' :: r2) :
    parseMembers (f + 1) ('"' :: kr) = some ([(⟨kcs⟩, v)], r2) := by
  rw [parseMembers_step]
  simp only [hk, h1, hv, h2]
  rfl


mutual

theorem parseVal_dump : ∀ (v : PyVal) (cs : List Char), jsonable v = true → dumpVal v = some cs →
    ∀ (fuel : Nat) (rest : List Char), cost v ≤ fuel → headDelim rest = true →
    parseVal fuel (cs ++ rest) = some (v, rest)
  | .none, cs, hj, hd, fuel, rest, hf, hr => by
    obtain ⟨f, rfl⟩ : ∃ f, fuel = f + 1 := ⟨fuel - 1, by
      have := cost_pos PyVal.none; omega⟩
    rw [show cs = ['n', 'u', 'l', 'l'] from by simpa [dumpVal] using hd.symm]
    exact parseVal_null f rest
  | .bool b, cs, hj, hd, fuel, rest, hf, hr => by
    obtain ⟨f, rfl⟩ : ∃ f, fuel = f + 1 := ⟨fuel - 1, by
      have := cost_pos (PyVal.bool b); omega⟩
    cases b
    · rw [show cs = ['f', 'a', 'l', 's', 'e'] from by simpa [dumpVal] using hd.symm]
      exact parseVal_false f rest
    · rw [show cs = ['t', 'r', 'u', 'e'] from by simpa [dumpVal] using hd.symm]
      exact parseVal_true f rest
  | .int n, cs, hj, hd, fuel, rest, hf, hr => by
    obtain ⟨f, rfl⟩ : ∃ f, fuel = f + 1 := ⟨fuel - 1, by
      have := cost_pos (PyVal.int n); omega⟩
    have hnd : headIsDigit rest = false := headDelim_notDigit hr
    rw [show cs = intChars n from by simpa [dumpVal] using hd.symm]
    by_cases hn : n < 0
    · rw [intChars, if_pos hn, List.cons_append, parseVal_neg, parseNat_natChars _ hnd,
        Option.map_some']
      have hcast : -((n.natAbs : Int)) = n := by omega
      rw [hcast]
    · rw [intChars, if_neg hn]
      obtain ⟨d, tl, hdlt, htl⟩ := natChars_head n.toNat
      rw [htl, List.cons_append, parseVal_digit (digitChar_props d hdlt).1, ← List.cons_append,
        ← htl, parseNat_natChars _ hnd, Option.map_some']
      have hcast : ((n.toNat : Int)) = n := by omega
      rw [hcast]
  | .str s, cs, hj, hd, fuel, rest, hf, hr => by
    obtain ⟨f, rfl⟩ : ∃ f, fuel = f + 1 := ⟨fuel - 1, by
      have := cost_pos (PyVal.str s); omega⟩
    rw [show cs = quoteStr s from by simpa [dumpVal] using hd.symm,
      show quoteStr s ++ rest = '"' :: (escapeList s.data ++ '"' :: rest) from by
        rw [quoteStr]; simp,
      parseVal_quote, parseStrBody_escape]
    rfl
  | .list xs, cs, hj, hd, fuel, rest, hf, hr => by
    obtain ⟨f, rfl⟩ : ∃ f, fuel = f + 1 := ⟨fuel - 1, by
      have := cost_pos (PyVal.list xs); omega⟩
    rw [dumpVal] at hd
    cases xs with
    | nil =>
      simp only [dumpList] at hd
      rw [← Option.some_inj.mp hd]
      rw [show ('[' :: [] ++ [']'] : List Char) ++ rest = '[' :: ']' :: rest from rfl]
      exact parseVal_list_nil f (skipWs_head (by decide) rest)
    | cons x xs' =>
      match hb : dumpList (x :: xs') with
      | some body =>
        rw [hb] at hd
        obtain ⟨c0, tl, hbody, hws, hne1, _⟩ := dumpList_head hb
        rw [← Option.some_inj.mp hd]
        rw [show ('[' :: body ++ [']']) ++ rest = '[' :: (body ++ ']' :: rest) from by simp]
        have hsk : skipWs (body ++ ']' :: rest) = c0 :: (tl ++ ']' :: rest) := by
          rw [hbody, List.cons_append]
          exact skipWs_head hws _
        rw [parseVal_list_cons f hsk hne1, ← List.cons_append, ← hbody]
        rw [jsonable] at hj
        rw [show cost (PyVal.list (x :: xs')) = 1 + costList (x :: xs') from rfl] at hf
        rw [parseItems_dump (x :: xs') body hj (by simp) hb f rest (by omega)]
        rfl
      | Option.none => rw [hb] at hd; cases hd
  | .dict kvs, cs, hj, hd, fuel, rest, hf, hr => by
    obtain ⟨f, rfl⟩ : ∃ f, fuel = f + 1 := ⟨fuel - 1, by
      have := cost_pos (PyVal.dict kvs); omega⟩
    rw [dumpVal] at hd
    cases kvs with
    | nil =>
      simp only [dumpMembers] at hd
      rw [← Option.some_inj.mp hd]
      rw [show ('{' :: [] ++ ['}'] : List Char) ++ rest = '{' :: '}' :: rest from rfl]
      exact parseVal_dict_nil f (skipWs_head (by decide) rest)
    | cons kv kvs' =>
      obtain ⟨k, v⟩ := kv
      match hb : dumpMembers ((k, v) :: kvs') with
      | some body =>
        rw [hb] at hd
        obtain ⟨tl, hbody⟩ := dumpMembers_head hb
        rw [← Option.some_inj.mp hd]
        rw [show ('{' :: body ++ ['}']) ++ rest = '{' :: (body ++ '}' :: rest) from by simp]
        have hsk : skipWs (body ++ '}' :: rest) = '"' :: (tl ++ '}' :: rest) := by
          rw [hbody, List.cons_append]
          exact skipWs_head (by decide) _
        rw [parseVal_dict_cons f hsk (by decide), ← List.cons_append, ← hbody]
        rw [jsonable, Bool.and_eq_true] at hj
        rw [show cost (PyVal.dict ((k, v) :: kvs')) = 1 + costDict ((k, v) :: kvs') from rfl] at hf
        rw [parseMembers_dump ((k, v) :: kvs') body hj.2 (by simp) hb f rest (by omega),
          Option.map_some', dictFromPairs_self hj.1]
      | Option.none => rw [hb] at hd; cases hd
  | .bytes b, cs, hj, hd, fuel, rest, hf, hr => by
    exact absurd hj (by simp [jsonable])

theorem parseItems_dump : ∀ (xs : List PyVal) (cs : List Char), jsonableList xs = true →
    xs ≠ [] → dumpList xs = some cs → ∀ (fuel : Nat) (rest : List Char), costList xs ≤ fuel →
    parseItems fuel (cs ++ ']' :: rest) = some (xs, rest)
  | [], _, _, hne, _, _, _, _ => absurd rfl hne
  | [x], cs, hj, _, hd, fuel, rest, hf => by
    rw [show costList [x] = 1 + cost x from by simp [costList]] at hf
    obtain ⟨f, rfl⟩ : ∃ f, fuel = f + 1 := ⟨fuel - 1, by omega⟩
    rw [jsonableList, Bool.and_eq_true] at hj
    have hv : parseVal f (cs ++ ']' :: rest) = some (x, ']' :: rest) :=
      parseVal_dump x cs hj.1 (by simpa [dumpList] using hd) f (']' :: rest) (by omega) rfl
    exact parseItems_close hv (skipWs_head (by decide) rest)
  | x :: y :: ys, cs, hj, _, hd, fuel, rest, hf => by
    rw [dumpList] at hd
    match hx : dumpVal x, hrr : dumpList (y :: ys) with
    | some dx, some dr =>
      rw [hx, hrr] at hd
      rw [← Option.some_inj.mp hd]
      rw [show costList (x :: y :: ys) = 1 + cost x + costList (y :: ys) from rfl] at hf
      obtain ⟨f, rfl⟩ : ∃ f, fuel = f + 1 := ⟨fuel - 1, by omega⟩
      rw [jsonableList, Bool.and_eq_true] at hj
      rw [show (dx ++ ',' :: ' ' :: dr) ++ ']' :: rest =
        dx ++ (',' :: ' ' :: (dr ++ ']' :: rest)) from by simp]
      have hv : parseVal f (dx ++ (',' :: ' ' :: (dr ++ ']' :: rest))) =
          some (x, ',' :: ' ' :: (dr ++ ']' :: rest)) :=
        parseVal_dump x dx hj.1 hx f _ (by omega) rfl
      obtain ⟨c1, tl1, hdr, hws1, _, _⟩ := dumpList_head hrr
      have hsk2 : skipWs (' ' :: (dr ++ ']' :: rest)) = dr ++ ']' :: rest := by
        rw [skipWs_space, hdr, List.cons_append]
        exact skipWs_head hws1 _
      rw [parseItems_comma hv (skipWs_head (by decide) _), hsk2]
      rw [parseItems_dump (y :: ys) dr hj.2 (by simp) hrr f rest (by omega)]
      rfl
    | some dx, Option.none => rw [hx, hrr] at hd; cases hd
    | Option.none, _ => rw [hx] at hd; cases hd

theorem parseMembers_dump : ∀ (kvs : List (String × PyVal)) (cs : List Char),
    jsonableDict kvs = true → kvs ≠ [] → dumpMembers kvs = some cs →
    ∀ (fuel : Nat) (rest : List Char), costDict kvs ≤ fuel →
    parseMembers fuel (cs ++ '}' :: rest) = some (kvs, rest)
  | [], _, _, hne, _, _, _, _ => absurd rfl hne
  | [(k, v)], cs, hj, _, hd, fuel, rest, hf => by
    rw [dumpMembers] at hd
    match hv : dumpVal v with
    | some dv =>
      rw [hv] at hd
      rw [← Option.some_inj.mp hd]
      rw [show costDict [(k, v)] = 1 + cost v from by simp [costDict]] at hf
      obtain ⟨f, rfl⟩ : ∃ f, fuel = f + 1 := ⟨fuel - 1, by omega⟩
      rw [jsonableDict, Bool.and_eq_true] at hj
      rw [quoteStr]
      rw [show ('"' :: escapeList k.data ++ ['"'] ++ ':' :: ' ' :: dv) ++ '}' :: rest =
        '"' :: (escapeList k.data ++ '"' :: (':' :: ' ' :: (dv ++ '}' :: rest))) from by simp]
      obtain ⟨c2, tl2, hdv, hws2, _, _⟩ := dumpVal_head hv
      have hskv : skipWs (' ' :: (dv ++ '}' :: rest)) = dv ++ '}' :: rest := by
        rw [skipWs_space, hdv, List.cons_append]
        exact skipWs_head hws2 _
      have hpv : parseVal f (skipWs (' ' :: (dv ++ '}' :: rest))) = some (v, '}' :: rest) := by
        rw [hskv]
        exact parseVal_dump v dv hj.1 hv f ('}' :: rest) (by omega) rfl
      rw [parseMembers_close (parseStrBody_escape k.data _) (skipWs_head (by decide) _) hpv
        (skipWs_head (by decide) rest)]
    | Option.none => rw [hv] at hd; cases hd
  | (k, v) :: m :: kvs', cs, hj, _, hd, fuel, rest, hf => by
    rw [dumpMembers] at hd
    match hv : dumpVal v, hrr : dumpMembers (m :: kvs') with
    | some dv, some dr =>
      rw [hv, hrr] at hd
      rw [← Option.some_inj.mp hd]
      rw [show costDict ((k, v) :: m :: kvs') = 1 + cost v + costDict (m :: kvs') from rfl] at hf
      obtain ⟨f, rfl⟩ : ∃ f, fuel = f + 1 := ⟨fuel - 1, by omega⟩
      rw [jsonableDict, Bool.and_eq_true] at hj
      rw [quoteStr]
      rw [show ('"' :: escapeList k.data ++ ['"'] ++ ':' :: ' ' :: dv ++ ',' :: ' ' :: dr) ++
          '}' :: rest =
        '"' :: (escapeList k.data ++ '"' ::
          (':' :: ' ' :: (dv ++ ',' :: ' ' :: (dr ++ '}' :: rest)))) from by simp]
      obtain ⟨c2, tl2, hdv, hws2, _, _⟩ := dumpVal_head hv
      have hskv : skipWs (' ' :: (dv ++ ',' :: ' ' :: (dr ++ '}' :: rest))) =
          dv ++ ',' :: ' ' :: (dr ++ '}' :: rest) := by
        rw [skipWs_space, hdv, List.cons_append]
        exact skipWs_head hws2 _
      have hpv : parseVal f (skipWs (' ' :: (dv ++ ',' :: ' ' :: (dr ++ '}' :: rest)))) =
          some (v, ',' :: ' ' :: (dr ++ '}' :: rest)) := by
        rw [hskv]
        exact parseVal_dump v dv hj.1 hv f _ (by omega) rfl
      rw [parseMembers_comma (parseStrBody_escape k.data _) (skipWs_head (by decide) _) hpv
        (skipWs_head (by decide) _)]
      obtain ⟨tl3, hdr⟩ := dumpMembers_head hrr
      have hskr : skipWs (' ' :: (dr ++ '}' :: rest)) = dr ++ '}' :: rest := by
        rw [skipWs_space, hdr, List.cons_append]
        exact skipWs_head (by decide) _
      rw [hskr, parseMembers_dump (m :: kvs') dr hj.2 (by simp) hrr f rest (by omega)]
      rfl
    | some dv, Option.none => rw [hv, hrr] at hd; cases hd
    | Option.none, _ => rw [hv] at hd; cases hd

end


mutual

theorem dumpVal_isSome : ∀ (v : PyVal), jsonable v = true → ∃ cs, dumpVal v = some cs
  | .none, _ => ⟨_, rfl⟩
  | .bool true, _ => ⟨_, rfl⟩
  | .bool false, _ => ⟨_, rfl⟩
  | .int n, _ => ⟨_, rfl⟩
  | .str s, _ => ⟨_, rfl⟩
  | .list xs, hj => by
    obtain ⟨body, hb⟩ := dumpList_isSome xs (by simpa [jsonable] using hj)
    exact ⟨_, by rw [dumpVal, hb]⟩
  | .dict kvs, hj => by
    obtain ⟨body, hb⟩ := dumpMembers_isSome kvs (by
      rw [jsonable, Bool.and_eq_true] at hj
      exact hj.2)
    exact ⟨_, by rw [dumpVal, hb]⟩
  | .bytes b, hj => absurd hj (by simp [jsonable])

theorem dumpList_isSome : ∀ (xs : List PyVal), jsonableList xs = true →
    ∃ cs, dumpList xs = some cs
  | [], _ => ⟨_, rfl⟩
  | [x], hj => by
    obtain ⟨cs, hc⟩ := dumpVal_isSome x (by simpa [jsonableList] using hj)
    exact ⟨cs, by rw [dumpList, hc]⟩
  | x :: y :: ys, hj => by
    rw [jsonableList, Bool.and_eq_true] at hj
    obtain ⟨dx, hdx⟩ := dumpVal_isSome x hj.1
    obtain ⟨dr, hdr⟩ := dumpList_isSome (y :: ys) hj.2
    exact ⟨_, by rw [dumpList, hdx, hdr]⟩

theorem dumpMembers_isSome : ∀ (kvs : List (String × PyVal)), jsonableDict kvs = true →
    ∃ cs, dumpMembers kvs = some cs
  | [], _ => ⟨_, rfl⟩
  | [(k, v)], hj => by
    obtain ⟨dv, hdv⟩ := dumpVal_isSome v (by simpa [jsonableDict] using hj)
    exact ⟨_, by rw [dumpMembers, hdv]⟩
  | (k, v) :: m :: kvs', hj => by
    rw [jsonableDict, Bool.and_eq_true] at hj
    obtain ⟨dv, hdv⟩ := dumpVal_isSome v hj.1
    obtain ⟨dr, hdr⟩ := dumpMembers_isSome (m :: kvs') hj.2
    exact ⟨_, by rw [dumpMembers, hdv, hdr]⟩

end

/-- Round-trip of the modelled JSON codec: `json.loads(json.dumps(x)) == x`
on the JSON-compatible value space. -/
theorem loads_dumps (v : PyVal) (hj : jsonable v = true) :
    ∃ s, dumps v = some s ∧ loads s = some v := by
  obtain ⟨cs, hcs⟩ := dumpVal_isSome v hj
  refine ⟨⟨cs⟩, by rw [dumps, hcs]; rfl, ?_⟩
  have hfuel : cost v ≤ cs.length + 1 := le_trans (cost_le_len v cs hcs) (by omega)
  have hp : parseVal (cs.length + 1) (cs ++ []) = some (v, []) :=
    parseVal_dump v cs hj hcs (cs.length + 1) [] hfuel rfl
  rw [List.append_nil] at hp
  rw [loads]
  simp only [hp]
  rfl

/-! ### The s3like module -/

/-- The three serializer classes of the source: `Serializer` (identity, for
binary formats), `JSONSerializer` and `TextSerializer`, each carrying the
canonical extension it is constructed with in `get_serializer`. -/
inductive Serializer where
  | base (e : String)
  | json (e : String)
  | text (e : String)
  deriving DecidableEq

/-- The `ext` attribute set by `Serializer.__init__`. -/
def Serializer.ext : Serializer → String
  | .base e => e
  | .json e => e
  | .text e => e

/-- The `serialize` methods: the base class returns `data` unchanged,
`JSONSerializer` does `json.dumps(data).encode()` (a `TypeError` on values
JSON cannot encode), `TextSerializer` does `data.encode()` (an error unless
`data` is a string). -/
def Serializer.serialize : Serializer → PyVal → Option PyVal
  | .base _, d => some d
  | .json _, d => (dumps d).map fun s => .bytes (.utf8 s)
  | .text _, d =>
    match d with
    | .str s => some (.bytes (.utf8 s))
    | _ => Option.none

/-- The `deserialize` methods, applied to the bytes read from the archive:
the base class returns them unchanged, `JSONSerializer` does
`json.loads(data.decode())`, `TextSerializer` does `data.decode()`. -/
def Serializer.deserialize : Serializer → PyBytes → Option PyVal
  | .base _, b => some (.bytes b)
  | .json _, b => b.decode.bind loads
  | .text _, b => b.decode.map .str

/-- `get_serializer`: lookup in the dict literal; a tag that is not one of
the eleven keys raises `KeyError` (modelled as `none`). -/
def get_serializer (media_type : String) : Option Serializer :=
  if media_type = "bokeh" then some (.json "json")
  else if media_type = "table" then some (.text "html")
  else if media_type = "CSV" then some (.text "csv")
  else if media_type = "PNG" then some (.base "png")
  else if media_type = "JPEG" then some (.base "jpeg")
  else if media_type = "MP3" then some (.base "mp3")
  else if media_type = "MP4" then some (.base "mp4")
  else if media_type = "HDF5" then some (.base "h5")
  else if media_type = "PDF" then some (.base "pdf")
  else if media_type = "Markdown" then some (.text "md")
  else if media_type = "Text" then some (.text "txt")
  else Option.none

/-- Python `str.endswith`: case-sensitive exact suffix match on the
character sequences. -/
def pyEndsWith (s suf : String) : Bool :=
  decide (s.data.drop (s.data.length - suf.data.length) = suf.data)

/-- The filename computation of the write loop:
`filename = title; if not filename.endswith("." + ext): filename += "." + ext`. -/
def computeFilename (title e : String) : String :=
  if pyEndsWith title ("." ++ e) then title else title ++ ("." ++ e)

/-- The choices of the `validate.OneOf` validator on `Output.media_type`. -/
def mediaTypes : List String :=
  ["bokeh", "table", "CSV", "PNG", "JPEG", "MP3", "MP4", "HDF5", "PDF", "Markdown", "Text"]

/-- An output of a local result: `{title, media_type, data}`. -/
structure LocalOutput where
  title : String
  media_type : String
  data : PyVal
  deriving DecidableEq

/-- A local result: the two fixed categories of local outputs. -/
structure LocalResult where
  renderable : List LocalOutput
  downloadable : List LocalOutput
  deriving DecidableEq

/-- A manifest entry: `{title, media_type, filename}`. -/
structure RemoteOutput where
  title : String
  media_type : String
  filename : String
  deriving DecidableEq

/-- A per-category manifest record: `{ziplocation, outputs}`. -/
structure RemoteOutputCategory where
  outputs : List RemoteOutput
  ziplocation : String
  deriving DecidableEq

/-- A remote manifest; both categories are `required=False` in the
`RemoteResult` schema, so either may be absent. -/
structure RemoteResult where
  renderable : Option RemoteOutputCategory
  downloadable : Option RemoteOutputCategory
  deriving DecidableEq

/-- Membership in the closed media-type enumeration. -/
def validMediaType (m : String) : Bool := mediaTypes.contains m

/-- The checkable content of `LocalResult().load(loc_result)` in this typed
embedding: every output's `media_type` passes the `OneOf` validator. -/
def validateLocal (r : LocalResult) : Bool :=
  (r.renderable ++ r.downloadable).all fun o => validMediaType o.media_type

/-- Validation of one nested `RemoteOutputCategory`. -/
def validateCategory (c : RemoteOutputCategory) : Bool :=
  c.outputs.all fun o => validMediaType o.media_type

/-- The checkable content of `RemoteResult().load(rem_result)`: each present
category's outputs pass the `OneOf` validator. -/
def validateRemote (r : RemoteResult) : Bool :=
  (match r.renderable with
   | some c => validateCategory c
   | Option.none => true) &&
  (match r.downloadable with
   | some c => validateCategory c
   | Option.none => true)

/-- An in-memory zip archive: its members, in the order `writestr` wrote
them.  Only member names and contents are contractually significant. -/
abbrev ZipArchive := List (String × PyBytes)

/-- `ZipFile.writestr` accepts `bytes`, or a `str` which it encodes as
UTF-8; other payloads fail. -/
def zipDataBytes : PyVal → Option PyBytes
  | .bytes b => some b
  | .str s => some (.utf8 s)
  | _ => Option.none

/-- `ZipFile.read(name)`: CPython resolves a name through `NameToInfo`,
which maps it to the *last* member written under that name, so duplicate
names read back the most recently written content; a missing name raises
`KeyError`. -/
def zipRead (z : ZipArchive) (name : String) : Option PyBytes :=
  (z.reverse.find? fun m => m.1 == name).map Prod.snd

/-- The blob store: opaque keys mapped to the archive bytes stored under
them (represented by the archive's member list). -/
abbrev BlobStore := List (String × ZipArchive)

/-- `gcsfs.open(key, "wb")` followed by a whole-buffer write: overwrite
semantics at an existing key, creation otherwise. -/
def storePut : BlobStore → String → ZipArchive → BlobStore
  | [], k, z => [(k, z)]
  | (k', z') :: rest, k, z =>
    if k' = k then (k', z) :: rest else (k', z') :: storePut rest k z

/-- `gcsfs.open(key, "rb")` followed by a whole-buffer read; a missing key
raises the filesystem's resource-not-found error. -/
def storeGet : BlobStore → String → Option ZipArchive
  | [], _ => Option.none
  | (k', z) :: rest, k => if k' = k then some z else storeGet rest k

/-- The exceptions the two orchestrators can raise. -/
inductive S3Error where
  | validationError
  | keyError (tag : String)
  | typeError
  | blobMissing (key : String)
  | memberMissing (name : String)
  | decodeError
  deriving DecidableEq

/-- The per-output body of the write loop: look up the serializer by media
type, serialize the data, compute the member filename, and convert the
serialized value to the bytes `writestr` stores. -/
def processOutput (o : LocalOutput) : Except S3Error (String × PyBytes) :=
  match get_serializer o.media_type with
  | Option.none => .error (.keyError o.media_type)
  | some serializer =>
    match serializer.serialize o.data with
    | Option.none => .error .typeError
    | some ser =>
      match zipDataBytes ser with
      | Option.none => .error .typeError
      | some content => .ok (computeFilename o.title serializer.ext, content)

/-- One category iteration of `write_to_s3like`: run the output loop,
collecting the zip members in write order and the manifest entries in input
order. -/
def buildCategory : List LocalOutput → Except S3Error (ZipArchive × List RemoteOutput)
  | [] => .ok ([], [])
  | o :: rest =>
    match processOutput o with
    | .error e => .error e
    | .ok (filename, content) =>
      match buildCategory rest with
      | .error e => .error e
      | .ok (z, entries) =>
        .ok ((filename, content) :: z,
          { title := o.title, media_type := o.media_type, filename := filename } :: entries)

/-- `write_to_s3like(task_id, loc_result, do_upload)`.  The blob store is
module state and is threaded explicitly; on success the returned manifest is
paired with the store after the uploads, and an error carries the store as
it stood when the exception was raised (validation runs before anything
else, so a validation error leaves it untouched). -/
def write_to_s3like (task_id : String) (loc_result : LocalResult) (store : BlobStore)
    (do_upload : Bool := true) : Except (S3Error × BlobStore) (RemoteResult × BlobStore) :=
  if validateLocal loc_result then
    match buildCategory loc_result.renderable with
    | .error e => .error (e, store)
    | .ok (zr, outs_r) =>
      let zl_r := task_id ++ "_renderable.zip"
      let store1 := if do_upload then storePut store zl_r zr else store
      match buildCategory loc_result.downloadable with
      | .error e => .error (e, store1)
      | .ok (zd, outs_d) =>
        let zl_d := task_id ++ "_downloadable.zip"
        let store2 := if do_upload then storePut store1 zl_d zd else store1
        .ok (⟨some ⟨outs_r, zl_r⟩, some ⟨outs_d, zl_d⟩⟩, store2)
  else .error (.validationError, store)

/-- The per-entry body of the read loop: look up the serializer, read the
named member from the archive, decode it, and rebuild the local output. -/
def readOutput (z : ZipArchive) (rem_output : RemoteOutput) : Except S3Error LocalOutput :=
  match get_serializer rem_output.media_type with
  | Option.none => .error (.keyError rem_output.media_type)
  | some ser =>
    match zipRead z rem_output.filename with
    | Option.none => .error (.memberMissing rem_output.filename)
    | some bs =>
      match ser.deserialize bs with
      | Option.none => .error .decodeError
      | some rem_data => .ok ⟨rem_output.title, rem_output.media_type, rem_data⟩

/-- The entry loop of one read category, in manifest order. -/
def readCategoryOutputs (z : ZipArchive) : List RemoteOutput → Except S3Error (List LocalOutput)
  | [] => .ok []
  | e :: rest =>
    match readOutput z e with
    | .error err => .error err
    | .ok o =>
      match readCategoryOutputs z rest with
      | .error err => .error err
      | .ok os => .ok (o :: os)

/-- One category of `read_from_s3like`: fetch the archive bytes stored at
the recorded key, then decode each manifest entry. -/
def readCategory (store : BlobStore) (cat : RemoteOutputCategory) :
    Except S3Error (List LocalOutput) :=
  match storeGet store cat.ziplocation with
  | Option.none => .error (.blobMissing cat.ziplocation)
  | some z => readCategoryOutputs z cat.outputs

/-- `read_from_s3like(rem_result)`: validate, then process the categories
present in the manifest (the source iterates the manifest's keys) against
the blob store; a category absent from the manifest keeps the empty list
`read` was initialised with. -/
def read_from_s3like (rem_result : RemoteResult) (store : BlobStore) :
    Except S3Error LocalResult :=
  if validateRemote rem_result then
    match (match rem_result.renderable with
           | some c => readCategory store c
           | Option.none => .ok []) with
    | .error e => .error e
    | .ok r =>
      match (match rem_result.downloadable with
             | some c => readCategory store c
             | Option.none => .ok []) with
      | .error e => .error e
      | .ok d => .ok ⟨r, d⟩
  else .error .validationError

instance {ε α : Type} [DecidableEq ε] [DecidableEq α] : DecidableEq (Except ε α) := fun x y =>
  match x, y with
  | .ok a, .ok b =>
    if h : a = b then isTrue (by rw [h]) else isFalse fun hh => h (by cases hh; rfl)
  | .error a, .error b =>
    if h : a = b then isTrue (by rw [h]) else isFalse fun hh => h (by cases hh; rfl)
  | .ok _, .error _ => isFalse fun hh => Except.noConfusion hh
  | .error _, .ok _ => isFalse fun hh => Except.noConfusion hh

/-! ### Support lemmas about the module -/

theorem pyEndsWith_iff {s suf : String} :
    pyEndsWith s suf = true ↔ s.data.drop (s.data.length - suf.data.length) = suf.data := by
  rw [pyEndsWith]
  exact decide_eq_true_iff

/-- `str.endswith` is the exact (case-sensitive) suffix test. -/
theorem pyEndsWith_suffix_iff (s suf : String) :
    pyEndsWith s suf = true ↔ suf.data <:+ s.data := by
  rw [pyEndsWith_iff]
  constructor
  · intro h
    rw [← h]
    exact List.drop_suffix _ _
  · rintro ⟨p, hp⟩
    rw [← hp, List.length_append, Nat.add_sub_cancel, List.drop_left]

theorem pyEndsWith_append (t suf : String) : pyEndsWith (t ++ suf) suf = true := by
  rw [pyEndsWith_suffix_iff, String.data_append]
  exact List.suffix_append _ _

theorem pyEndsWith_length {s suf : String} (h : pyEndsWith s suf = true) :
    suf.data.length ≤ s.data.length := by
  rw [pyEndsWith_suffix_iff] at h
  exact h.length_le

theorem pyEndsWith_trans {s a b : String} (ha : pyEndsWith s a = true)
    (hb : pyEndsWith s b = true) (hlen : a.data.length ≤ b.data.length) :
    pyEndsWith b a = true := by
  have hbs := pyEndsWith_length hb
  have has := pyEndsWith_length ha
  rw [pyEndsWith_iff] at ha hb ⊢
  calc b.data.drop (b.data.length - a.data.length)
      = (s.data.drop (s.data.length - b.data.length)).drop (b.data.length - a.data.length) := by
        rw [hb]
    _ = s.data.drop (s.data.length - a.data.length) := by
        rw [List.drop_drop]; congr 1; omega
    _ = a.data := ha

/-- The computed filename always carries the canonical extension as a
suffix. -/
theorem computeFilename_ends (title e : String) :
    pyEndsWith (computeFilename title e) ("." ++ e) = true := by
  rw [computeFilename]
  by_cases h : pyEndsWith title ("." ++ e) = true
  · rw [if_pos h]; exact h
  · rw [if_neg h]; exact pyEndsWith_append title ("." ++ e)

theorem computeFilename_idem (title e : String) :
    computeFilename (computeFilename title e) e = computeFilename title e := by
  conv in computeFilename (computeFilename title e) e => rw [computeFilename]
  rw [if_pos (computeFilename_ends title e)]

/-- Case analysis on a successful registry lookup: the tag is one of the
eleven members, with the serializer the dict literal assigns it. -/
theorem get_serializer_cases {m : String} {s : Serializer} (h : get_serializer m = some s) :
    (m = "bokeh" ∧ s = .json "json") ∨ (m = "table" ∧ s = .text "html") ∨
    (m = "CSV" ∧ s = .text "csv") ∨ (m = "PNG" ∧ s = .base "png") ∨
    (m = "JPEG" ∧ s = .base "jpeg") ∨ (m = "MP3" ∧ s = .base "mp3") ∨
    (m = "MP4" ∧ s = .base "mp4") ∨ (m = "HDF5" ∧ s = .base "h5") ∨
    (m = "PDF" ∧ s = .base "pdf") ∨ (m = "Markdown" ∧ s = .text "md") ∨
    (m = "Text" ∧ s = .text "txt") := by
  rw [get_serializer] at h
  by_cases h1 : m = "bokeh"
  · rw [if_pos h1] at h
    exact Or.inl ⟨h1, (Option.some_inj.mp h).symm⟩
  rw [if_neg h1] at h
  by_cases h2 : m = "table"
  · rw [if_pos h2] at h
    exact Or.inr (Or.inl ⟨h2, (Option.some_inj.mp h).symm⟩)
  rw [if_neg h2] at h
  by_cases h3 : m = "CSV"
  · rw [if_pos h3] at h
    exact Or.inr (Or.inr (Or.inl ⟨h3, (Option.some_inj.mp h).symm⟩))
  rw [if_neg h3] at h
  by_cases h4 : m = "PNG"
  · rw [if_pos h4] at h
    exact Or.inr (Or.inr (Or.inr (Or.inl ⟨h4, (Option.some_inj.mp h).symm⟩)))
  rw [if_neg h4] at h
  by_cases h5 : m = "JPEG"
  · rw [if_pos h5] at h
    exact Or.inr (Or.inr (Or.inr (Or.inr (Or.inl ⟨h5, (Option.some_inj.mp h).symm⟩))))
  rw [if_neg h5] at h
  by_cases h6 : m = "MP3"
  · rw [if_pos h6] at h
    exact Or.inr (Or.inr (Or.inr (Or.inr (Or.inr (Or.inl ⟨h6, (Option.some_inj.mp h).symm⟩)))))
  rw [if_neg h6] at h
  by_cases h7 : m = "MP4"
  · rw [if_pos h7] at h
    exact Or.inr (Or.inr (Or.inr (Or.inr (Or.inr (Or.inr (Or.inl ⟨h7, (Option.some_inj.mp h).symm⟩))))))
  rw [if_neg h7] at h
  by_cases h8 : m = "HDF5"
  · rw [if_pos h8] at h
    exact Or.inr (Or.inr (Or.inr (Or.inr (Or.inr (Or.inr (Or.inr (Or.inl ⟨h8, (Option.some_inj.mp h).symm⟩)))))))
  rw [if_neg h8] at h
  by_cases h9 : m = "PDF"
  · rw [if_pos h9] at h
    exact Or.inr (Or.inr (Or.inr (Or.inr (Or.inr (Or.inr (Or.inr (Or.inr (Or.inl ⟨h9, (Option.some_inj.mp h).symm⟩))))))))
  rw [if_neg h9] at h
  by_cases h10 : m = "Markdown"
  · rw [if_pos h10] at h
    exact Or.inr (Or.inr (Or.inr (Or.inr (Or.inr (Or.inr (Or.inr (Or.inr (Or.inr (Or.inl ⟨h10, (Option.some_inj.mp h).symm⟩)))))))))
  rw [if_neg h10] at h
  by_cases h11 : m = "Text"
  · rw [if_pos h11] at h
    exact Or.inr (Or.inr (Or.inr (Or.inr (Or.inr (Or.inr (Or.inr (Or.inr (Or.inr (Or.inr (⟨h11, (Option.some_inj.mp h).symm⟩))))))))))
  rw [if_neg h11] at h
  cases h

theorem get_serializer_valid {m : String} {s : Serializer} (h : get_serializer m = some s) :
    validMediaType m = true := by
  rcases get_serializer_cases h with
    ⟨rfl, _⟩ | ⟨rfl, _⟩ | ⟨rfl, _⟩ | ⟨rfl, _⟩ | ⟨rfl, _⟩ | ⟨rfl, _⟩ | ⟨rfl, _⟩ | ⟨rfl, _⟩ |
    ⟨rfl, _⟩ | ⟨rfl, _⟩ | ⟨rfl, _⟩ <;> decide

theorem get_serializer_of_valid {m : String} (h : validMediaType m = true) :
    ∃ s, get_serializer m = some s := by
  have hm : m ∈ mediaTypes := by
    rw [validMediaType] at h
    exact List.elem_iff.mp h
  rw [mediaTypes] at hm
  simp only [List.mem_cons, List.not_mem_nil, or_false] at hm
  rcases hm with rfl | rfl | rfl | rfl | rfl | rfl | rfl | rfl | rfl | rfl | rfl <;>
    exact ⟨_, rfl⟩

theorem get_serializer_invalid {m : String} (h : validMediaType m = false) :
    get_serializer m = Option.none := by
  match hg : get_serializer m with
  | Option.none => rfl
  | some s => rw [get_serializer_valid hg] at h; cases h

/-- The data spaces each serializer variant supports: raw bytes for the
identity variant, strings for the text variant, JSON-compatible values for
the JSON variant (see the spec's §4.2). -/
def supportedData : Serializer → PyVal → Bool
  | .base _, d =>
    match d with
    | .bytes _ => true
    | _ => false
  | .text _, d =>
    match d with
    | .str _ => true
    | _ => false
  | .json _, d => jsonable d

/-- An output whose media type is registered and whose data is in its
serializer's supported value space. -/
def goodOutput (o : LocalOutput) : Bool :=
  match get_serializer o.media_type with
  | some s => supportedData s o.data
  | Option.none => false

/-- Round-trip law of the serializer classes on their supported value
spaces: serializing yields a byte string that `writestr` accepts and that
`deserialize` maps back to the original value. -/
theorem serializer_roundtrip (s : Serializer) (d : PyVal) (h : supportedData s d = true) :
    ∃ b, s.serialize d = some (.bytes b) ∧ zipDataBytes (.bytes b) = some b ∧
      s.deserialize b = some d := by
  cases s with
  | base e =>
    match d, h with
    | .bytes b, _ => exact ⟨b, rfl, rfl, rfl⟩
  | text e =>
    match d, h with
    | .str t, _ => exact ⟨.utf8 t, rfl, rfl, rfl⟩
  | json e =>
    obtain ⟨t, hdump, hload⟩ := loads_dumps d h
    refine ⟨.utf8 t, ?_, rfl, ?_⟩
    · rw [Serializer.serialize, hdump]; rfl
    · rw [Serializer.deserialize, PyBytes.decode]
      simpa using hload

/-- Extension the write loop uses for an output (empty if the registry has
no entry — unreachable after validation). -/
def outputExt (o : LocalOutput) : String :=
  match get_serializer o.media_type with
  | some s => s.ext
  | Option.none => ""

/-- The archive member filename the write loop computes for an output. -/
def outputFilename (o : LocalOutput) : String :=
  computeFilename o.title (outputExt o)

/-- The archive member content the write loop stores for an output (a dummy
value outside the supported space — unreachable for good outputs). -/
def outputContent (o : LocalOutput) : PyBytes :=
  match get_serializer o.media_type with
  | some s =>
    match s.serialize o.data with
    | some v =>
      match zipDataBytes v with
      | some b => b
      | Option.none => .raw []
    | Option.none => .raw []
  | Option.none => .raw []

theorem goodOutput_spec {o : LocalOutput} (h : goodOutput o = true) :
    ∃ s, get_serializer o.media_type = some s ∧
      outputExt o = s.ext ∧
      s.serialize o.data = some (.bytes (outputContent o)) ∧
      s.deserialize (outputContent o) = some o.data ∧
      processOutput o = .ok (outputFilename o, outputContent o) := by
  rw [goodOutput] at h
  match hg : get_serializer o.media_type with
  | Option.none => rw [hg] at h; cases h
  | some s =>
    rw [hg] at h
    obtain ⟨b, hser, hzb, hde⟩ := serializer_roundtrip s o.data h
    have hcontent : outputContent o = b := by
      simp only [outputContent, hg, hser, hzb]
    refine ⟨s, rfl, by simp only [outputExt, hg], ?_, ?_, ?_⟩
    · rw [hcontent]; exact hser
    · rw [hcontent]; exact hde
    · simp only [processOutput, hg, hser, hzb, outputFilename, outputExt, hcontent]

theorem goodOutput_valid {o : LocalOutput} (h : goodOutput o = true) :
    validMediaType o.media_type = true := by
  obtain ⟨s, hg, -, -, -, -⟩ := goodOutput_spec h
  exact get_serializer_valid hg

/-- Success characterization of the write loop over one category: the zip
members and manifest entries correspond index-by-index to the outputs. -/
theorem buildCategory_ok : ∀ {outputs : List LocalOutput} {z : ZipArchive}
    {entries : List RemoteOutput}, buildCategory outputs = .ok (z, entries) →
    entries.length = outputs.length ∧ z.length = outputs.length ∧
    ∀ (i : Nat) (o : LocalOutput), outputs[i]? = some o → ∃ s b,
      get_serializer o.media_type = some s ∧
      processOutput o = .ok (computeFilename o.title s.ext, b) ∧
      entries[i]? = some (RemoteOutput.mk o.title o.media_type (computeFilename o.title s.ext)) ∧
      z[i]? = some (computeFilename o.title s.ext, b) := by
  intro outputs
  induction outputs with
  | nil =>
    intro z entries h
    rw [buildCategory] at h
    simp only [Except.ok.injEq, Prod.mk.injEq] at h
    obtain ⟨h1, h2⟩ := h
    subst h1 h2
    refine ⟨rfl, rfl, ?_⟩
    intro i o ho
    rw [List.getElem?_nil] at ho
    cases ho
  | cons o₀ rest ih =>
    intro z entries h
    rw [buildCategory] at h
    match hpo : processOutput o₀ with
    | .error e =>
      rw [hpo] at h
      simp at h
    | .ok (fn, content) =>
      rw [hpo] at h
      match hbc : buildCategory rest with
      | .error e =>
        rw [hbc] at h
        simp at h
      | .ok (z', entries') =>
        rw [hbc] at h
        simp only [Except.ok.injEq, Prod.mk.injEq] at h
        obtain ⟨h1, h2⟩ := h
        subst h1 h2
        obtain ⟨hl1, hl2, hidx⟩ := ih hbc
        have hsfn : ∃ s, get_serializer o₀.media_type = some s ∧
            fn = computeFilename o₀.title s.ext := by
          revert hpo
          match hg : get_serializer o₀.media_type with
          | Option.none =>
            intro hpo
            simp only [processOutput, hg] at hpo
            exact Except.noConfusion hpo
          | some s =>
            match hs : s.serialize o₀.data with
            | Option.none =>
              intro hpo
              simp only [processOutput, hg, hs] at hpo
              exact Except.noConfusion hpo
            | some ser =>
              match hz : zipDataBytes ser with
              | Option.none =>
                intro hpo
                simp only [processOutput, hg, hs, hz] at hpo
                exact Except.noConfusion hpo
              | some content' =>
                intro hpo
                simp only [processOutput, hg, hs, hz, Except.ok.injEq, Prod.mk.injEq] at hpo
                exact ⟨s, rfl, hpo.1.symm⟩
        obtain ⟨s, hg, rfl⟩ := hsfn
        refine ⟨by simp [hl1], by simp [hl2], ?_⟩
        intro i o ho
        match i with
        | 0 =>
          rw [List.getElem?_cons_zero] at ho
          injection ho with ho
          subst ho
          exact ⟨s, content, hg, hpo, by simp, by simp⟩
        | i + 1 =>
          rw [List.getElem?_cons_succ] at ho
          obtain ⟨s', b', hg', hpo', he', hz'⟩ := hidx i o ho
          exact ⟨s', b', hg', hpo', by simpa using he', by simpa using hz'⟩

/-- Success form of the write loop when every output is good: the members
and entries are the per-output filename/content maps. -/
theorem buildCategory_of_good : ∀ (outputs : List LocalOutput),
    (∀ o ∈ outputs, goodOutput o = true) →
    buildCategory outputs =
      .ok (outputs.map fun o => (outputFilename o, outputContent o),
           outputs.map fun o => ⟨o.title, o.media_type, outputFilename o⟩) := by
  intro outputs
  induction outputs with
  | nil => intro _; rfl
  | cons o rest ih =>
    intro hall
    obtain ⟨s, hg, hext, hser, hde, hpo⟩ := goodOutput_spec (hall o (by simp))
    rw [buildCategory, hpo, ih fun o' ho' => hall o' (by simp [ho']), List.map_cons,
      List.map_cons]

theorem storeGet_put_same (st : BlobStore) (k : String) (z : ZipArchive) :
    storeGet (storePut st k z) k = some z := by
  induction st with
  | nil => simp [storePut, storeGet]
  | cons kv rest ih =>
    obtain ⟨k', z'⟩ := kv
    by_cases h : k' = k
    · rw [storePut, if_pos h, storeGet, if_pos h]
    · rw [storePut, if_neg h, storeGet, if_neg h]
      exact ih

theorem storeGet_put_other (st : BlobStore) {k k' : String} (z : ZipArchive) (h : k' ≠ k) :
    storeGet (storePut st k z) k' = storeGet st k' := by
  induction st with
  | nil =>
    rw [storePut,
      show storeGet [(k, z)] k' = if k = k' then some z else storeGet [] k' from rfl,
      if_neg fun hh => h hh.symm]
  | cons kv rest ih =>
    obtain ⟨k0, z0⟩ := kv
    by_cases h0 : k0 = k
    · subst h0
      rw [storePut, if_pos rfl, storeGet, storeGet, if_neg fun hh => h hh.symm,
        if_neg fun hh => h hh.symm]
    · rw [storePut, if_neg h0, storeGet, storeGet]
      by_cases h1 : k0 = k'
      · rw [if_pos h1, if_pos h1]
      · rw [if_neg h1, if_neg h1]
        exact ih

theorem zipRead_cons (n : String) (c : PyBytes) (z : ZipArchive) (name : String) :
    zipRead ((n, c) :: z) name =
      match zipRead z name with
      | some c' => some c'
      | Option.none => if n = name then some c else Option.none := by
  rw [zipRead, zipRead, List.reverse_cons, List.find?_append]
  cases hf : (z.reverse.find? fun m => m.1 == name) with
  | some m => rfl
  | none =>
    simp only [Option.none_or, Option.map_none']
    by_cases h : n = name
    · simp [List.find?, h]
    · have hb : (n == name) = false := beq_eq_false_iff_ne.mpr h
      simp [List.find?, hb, h]

theorem zipRead_not_mem {z : ZipArchive} {name : String}
    (h : ∀ m ∈ z, m.1 ≠ name) : zipRead z name = Option.none := by
  induction z with
  | nil => rfl
  | cons m rest ih =>
    obtain ⟨n, c⟩ := m
    rw [zipRead_cons, ih fun m hm => h m (by simp [hm])]
    rw [if_neg (h (n, c) (by simp))]

/-- `ZipFile.read` returns the last member written under the requested
name. -/
theorem zipRead_getLast (z : ZipArchive) (name : String) :
    zipRead z name = ((z.filter fun m => m.1 == name).getLast?).map Prod.snd := by
  induction z with
  | nil => rfl
  | cons m rest ih =>
    obtain ⟨n, c⟩ := m
    rw [zipRead_cons, ih]
    by_cases h : n = name
    · rw [List.filter_cons_of_pos (by simpa using h)]
      cases hf : rest.filter fun m => m.1 == name with
      | nil => simp [h]
      | cons m' l =>
        rw [List.getLast?_cons_cons]
        obtain ⟨mm, hmm⟩ : ∃ mm, (m' :: l).getLast? = some mm :=
          ⟨(m' :: l).getLast (by simp), List.getLast?_eq_getLast _ (by simp)⟩
        rw [hmm]
        rfl
    · rw [List.filter_cons_of_neg (by simpa using h)]
      cases hg : (rest.filter fun m => m.1 == name).getLast? with
      | none => simp [if_neg h]
      | some mm => rfl

theorem readCategoryOutputs_map {z : ZipArchive} {outputs : List LocalOutput}
    {mk : LocalOutput → RemoteOutput} (h : ∀ o ∈ outputs, readOutput z (mk o) = .ok o) :
    readCategoryOutputs z (outputs.map mk) = .ok outputs := by
  induction outputs with
  | nil => rfl
  | cons o rest ih =>
    rw [List.map_cons, readCategoryOutputs, h o (by simp),
      ih fun o' ho' => h o' (by simp [ho'])]

theorem readCategoryOutputs_ok : ∀ {z : ZipArchive} {entries : List RemoteOutput}
    {os : List LocalOutput}, readCategoryOutputs z entries = .ok os →
    os.length = entries.length ∧
    ∀ (i : Nat) (e : RemoteOutput), entries[i]? = some e →
      ∃ o, os[i]? = some o ∧ readOutput z e = .ok o := by
  intro z entries
  induction entries with
  | nil =>
    intro os h
    rw [readCategoryOutputs] at h
    simp only [Except.ok.injEq] at h
    subst h
    exact ⟨rfl, fun i e he => by rw [List.getElem?_nil] at he; cases he⟩
  | cons e rest ih =>
    intro os h
    rw [readCategoryOutputs] at h
    match hro : readOutput z e with
    | .error err => rw [hro] at h; exact Except.noConfusion h
    | .ok o =>
      rw [hro] at h
      match hrest : readCategoryOutputs z rest with
      | .error err => rw [hrest] at h; exact Except.noConfusion h
      | .ok os' =>
        rw [hrest] at h
        simp only [Except.ok.injEq] at h
        subst h
        obtain ⟨hl, hidx⟩ := ih hrest
        refine ⟨by simp [hl], ?_⟩
        intro i e' he
        match i with
        | 0 =>
          rw [List.getElem?_cons_zero] at he
          injection he with he
          subst he
          exact ⟨o, by simp, hro⟩
        | i + 1 =>
          rw [List.getElem?_cons_succ] at he
          obtain ⟨o', ho', hro'⟩ := hidx i e' he
          exact ⟨o', by simpa using ho', hro'⟩

theorem readOutput_fields {z : ZipArchive} {e : RemoteOutput} {o : LocalOutput}
    (h : readOutput z e = .ok o) : o.title = e.title ∧ o.media_type = e.media_type := by
  revert h
  match hg : get_serializer e.media_type with
  | Option.none =>
    intro h
    simp only [readOutput, hg] at h
    exact Except.noConfusion h
  | some s =>
    match hz : zipRead z e.filename with
    | Option.none =>
      intro h
      simp only [readOutput, hg, hz] at h
      exact Except.noConfusion h
    | some bs =>
      match hd : s.deserialize bs with
      | Option.none =>
        intro h
        simp only [readOutput, hg, hz, hd] at h
        exact Except.noConfusion h
      | some rem_data =>
        intro h
        simp only [readOutput, hg, hz, hd, Except.ok.injEq] at h
        subst h
        exact ⟨rfl, rfl⟩

theorem zipRead_map_distinct : ∀ (outputs : List LocalOutput) {o : LocalOutput},
    o ∈ outputs → (outputs.map outputFilename).Nodup →
    zipRead (outputs.map fun o' => (outputFilename o', outputContent o')) (outputFilename o) =
      some (outputContent o) := by
  intro outputs
  induction outputs with
  | nil => intro o ho; cases ho
  | cons o₀ rest ih =>
    intro o ho hnd
    rw [List.map_cons] at hnd
    rw [List.nodup_cons] at hnd
    rcases List.mem_cons.mp ho with rfl | hmem
    · rw [List.map_cons, zipRead_cons,
        zipRead_not_mem (by
          intro m hm
          obtain ⟨o', ho', rfl⟩ := List.mem_map.mp hm
          intro hc
          exact hnd.1 (List.mem_map.mpr ⟨o', ho', hc⟩)),
        if_pos rfl]
    · rw [List.map_cons, zipRead_cons, ih hmem hnd.2]

theorem readOutput_good {outputs : List LocalOutput} {o : LocalOutput} (ho : o ∈ outputs)
    (hall : ∀ o' ∈ outputs, goodOutput o' = true)
    (hnd : (outputs.map outputFilename).Nodup) :
    readOutput (outputs.map fun o' => (outputFilename o', outputContent o'))
      (RemoteOutput.mk o.title o.media_type (outputFilename o)) = .ok o := by
  obtain ⟨s, hg, hext, hser, hde, hpo⟩ := goodOutput_spec (hall o ho)
  simp only [readOutput, hg, zipRead_map_distinct outputs ho hnd, hde]

theorem validateCategory_map {outputs : List LocalOutput} {key : String}
    (hall : ∀ o ∈ outputs, goodOutput o = true) :
    validateCategory ⟨outputs.map fun o => ⟨o.title, o.media_type, outputFilename o⟩, key⟩ =
      true := by
  simp only [validateCategory, List.all_eq_true, List.mem_map]
  rintro e ⟨o, ho, rfl⟩
  exact goodOutput_valid (hall o ho)

/-- The eleven serializer values the registry can return. -/
def serializerList : List Serializer :=
  [.json "json", .text "html", .text "csv", .base "png", .base "jpeg", .base "mp3",
   .base "mp4", .base "h5", .base "pdf", .text "md", .text "txt"]

theorem get_serializer_mem {m : String} {s : Serializer} (h : get_serializer m = some s) :
    s ∈ serializerList := by
  rcases get_serializer_cases h with he | he | he | he | he | he | he | he | he | he | he <;>
    rw [he.2] <;> decide

/-- No registered canonical extension (with its dot) is a suffix of a
different one, so equal member filenames force equal serializers. -/
theorem ext_compat : ∀ s1 ∈ serializerList, ∀ s2 ∈ serializerList,
    pyEndsWith ("." ++ s2.ext) ("." ++ s1.ext) = true → s1 = s2 := by decide

theorem serializer_of_filename_eq {o1 o2 : LocalOutput} {s1 s2 : Serializer}
    (h1 : get_serializer o1.media_type = some s1) (h2 : get_serializer o2.media_type = some s2)
    (hfn : outputFilename o1 = outputFilename o2) : s1 = s2 := by
  have e1 : pyEndsWith (outputFilename o1) ("." ++ s1.ext) = true := by
    rw [outputFilename, show outputExt o1 = s1.ext from by simp only [outputExt, h1]]
    exact computeFilename_ends _ _
  have e2 : pyEndsWith (outputFilename o2) ("." ++ s2.ext) = true := by
    rw [outputFilename, show outputExt o2 = s2.ext from by simp only [outputExt, h2]]
    exact computeFilename_ends _ _
  rw [hfn] at e1
  rcases le_total ("." ++ s1.ext).data.length ("." ++ s2.ext).data.length with hle | hle
  · exact ext_compat s1 (get_serializer_mem h1) s2 (get_serializer_mem h2)
      (pyEndsWith_trans e1 e2 hle)
  · exact (ext_compat s2 (get_serializer_mem h2) s1 (get_serializer_mem h1)
      (pyEndsWith_trans e2 e1 hle)).symm

theorem readOutput_last {outputs : List LocalOutput} {o oLast : LocalOutput}
    (ho : o ∈ outputs) (hall : ∀ o' ∈ outputs, goodOutput o' = true)
    (hlast : (outputs.filter fun o' => outputFilename o' == outputFilename o).getLast? =
      some oLast) :
    readOutput (outputs.map fun o' => (outputFilename o', outputContent o'))
      (RemoteOutput.mk o.title o.media_type (outputFilename o)) =
      .ok (LocalOutput.mk o.title o.media_type oLast.data) := by
  have hmemf : oLast ∈ outputs.filter fun o' => outputFilename o' == outputFilename o := by
    obtain ⟨hne, heq⟩ := List.mem_getLast?_eq_getLast (Option.mem_def.mpr hlast)
    rw [heq]
    exact List.getLast_mem hne
  rw [List.mem_filter] at hmemf
  have hfn : outputFilename oLast = outputFilename o := by simpa using hmemf.2
  obtain ⟨s, hg, hext, hser, hde, hpo⟩ := goodOutput_spec (hall o ho)
  obtain ⟨sL, hgL, hextL, hserL, hdeL, hpoL⟩ := goodOutput_spec (hall oLast hmemf.1)
  have hss : s = sL := serializer_of_filename_eq hg hgL hfn.symm
  have hzr : zipRead (outputs.map fun o' => (outputFilename o', outputContent o'))
      (outputFilename o) = some (outputContent oLast) := by
    rw [zipRead_getLast, List.filter_map]
    have hpred : ((fun m => m.1 == outputFilename o) ∘
        fun o' => (outputFilename o', outputContent o')) =
        fun o' => outputFilename o' == outputFilename o := rfl
    rw [hpred, List.getLast?_map, hlast]
    rfl
  simp only [readOutput, hg, hzr, hss, hdeL]

theorem ziplocations_ne (task_id : String) :
    task_id ++ "_renderable.zip" ≠ task_id ++ "_downloadable.zip" := by
  intro h
  have hlen := congrArg (fun s : String => s.data.length) h
  simp only [String.data_append, List.length_append] at hlen
  simp only [List.length_cons, List.length_nil] at hlen
  omega

/-- Successful write over good outputs: the manifest records the mapped
entries under the derived keys, and the store holds the corresponding
archives. -/
theorem write_ok_of_good {task_id : String} {loc : LocalResult} {store : BlobStore}
    (hgr : ∀ o ∈ loc.renderable, goodOutput o = true)
    (hgd : ∀ o ∈ loc.downloadable, goodOutput o = true) :
    write_to_s3like task_id loc store true = .ok
      (⟨some ⟨loc.renderable.map fun o => ⟨o.title, o.media_type, outputFilename o⟩,
          task_id ++ "_renderable.zip"⟩,
        some ⟨loc.downloadable.map fun o => ⟨o.title, o.media_type, outputFilename o⟩,
          task_id ++ "_downloadable.zip"⟩⟩,
       storePut (storePut store (task_id ++ "_renderable.zip")
           (loc.renderable.map fun o => (outputFilename o, outputContent o)))
         (task_id ++ "_downloadable.zip")
         (loc.downloadable.map fun o => (outputFilename o, outputContent o))) := by
  have hval : validateLocal loc = true := by
    simp only [validateLocal, List.all_eq_true, List.mem_append]
    rintro o (ho | ho)
    · exact goodOutput_valid (hgr o ho)
    · exact goodOutput_valid (hgd o ho)
  rw [write_to_s3like, if_pos hval]
  simp only [buildCategory_of_good _ hgr, buildCategory_of_good _ hgd, if_pos rfl]
  rfl

/-! ### The claims -/

/-- Claim C2: for every media type in the closed enumeration and every value
in the value space its serializer variant claims to support (raw bytes for
the identity variant, strings for the text variant, JSON-compatible values
with string-keyed mappings for the structured variant),
`deserialize(serialize(x)) == x`. -/
theorem claim2_serializer_roundtrip :
    ∀ (m : String) (s : Serializer), get_serializer m = some s →
    ∀ (x : PyVal), supportedData s x = true →
    ∃ b, s.serialize x = some (.bytes b) ∧ s.deserialize b = some x := by
  intro m s hm x hx
  obtain ⟨b, h1, -, h3⟩ := serializer_roundtrip s x hx
  exact ⟨b, h1, h3⟩

theorem claim2_witness :
    get_serializer "bokeh" = some (.json "json") ∧
    supportedData (.json "json") (.dict [("a", .int 1)]) = true ∧
    ∃ b, (Serializer.json "json").serialize (.dict [("a", .int 1)]) = some (.bytes b) ∧
      (Serializer.json "json").deserialize b = some (.dict [("a", .int 1)]) :=
  ⟨by decide, by decide, claim2_serializer_roundtrip "bokeh" _ (by decide) _ (by decide)⟩

/-- Claim C3: the computed archive filename is the title with the canonical
extension appended only if the title does not already end with `.<ext>`
under a case-sensitive exact suffix match (`pyEndsWith` is exactly the
suffix relation on the character sequences), the computation is idempotent,
and title `report.csv` with media type `CSV` yields `report.csv`, not
`report.csv.csv`. -/
theorem claim3_filename :
    (∀ s suf : String, pyEndsWith s suf = true ↔ suf.data <:+ s.data) ∧
    (∀ title e : String, pyEndsWith title ("." ++ e) = true → computeFilename title e = title) ∧
    (∀ title e : String, pyEndsWith title ("." ++ e) = false →
      computeFilename title e = title ++ ("." ++ e)) ∧
    (∀ title e : String, computeFilename (computeFilename title e) e = computeFilename title e) ∧
    get_serializer "CSV" = some (.text "csv") ∧
    computeFilename "report.csv" "csv" = "report.csv" := by
  refine ⟨pyEndsWith_suffix_iff, ?_, ?_, computeFilename_idem, by decide, by decide⟩
  · intro t e h
    rw [computeFilename, if_pos h]
  · intro t e h
    rw [computeFilename, if_neg (by simp [h])]

theorem claim3_witness :
    (pyEndsWith "report.csv" ".csv" = true ↔ (".csv" : String).data <:+ ("report.csv" : String).data) ∧
    computeFilename "report.csv" "csv" = "report.csv" ∧
    computeFilename "plot" "csv" = "plot.csv" :=
  ⟨claim3_filename.1 "report.csv" ".csv",
   claim3_filename.2.1 "report.csv" "csv" (by decide),
   claim3_filename.2.2.1 "plot" "csv" (by decide)⟩

/-- Claim C8: the serializer lookup is total and fixed on the closed
enumeration — each of the eleven tags maps to exactly the serializer shown,
with canonical extensions json, html, csv, png, jpeg, mp3, mp4, h5, pdf,
md, txt respectively — and lookup of any tag outside the enumeration fails
with the registry's key error (modelled as `none`). -/
theorem claim8_registry :
    get_serializer "bokeh" = some (.json "json") ∧
    get_serializer "table" = some (.text "html") ∧
    get_serializer "CSV" = some (.text "csv") ∧
    get_serializer "PNG" = some (.base "png") ∧
    get_serializer "JPEG" = some (.base "jpeg") ∧
    get_serializer "MP3" = some (.base "mp3") ∧
    get_serializer "MP4" = some (.base "mp4") ∧
    get_serializer "HDF5" = some (.base "h5") ∧
    get_serializer "PDF" = some (.base "pdf") ∧
    get_serializer "Markdown" = some (.text "md") ∧
    get_serializer "Text" = some (.text "txt") ∧
    (∀ m : String, validMediaType m = false → get_serializer m = Option.none) ∧
    (∀ (m : String) (s : Serializer), get_serializer m = some s → validMediaType m = true) :=
  ⟨rfl, rfl, rfl, rfl, rfl, rfl, rfl, rfl, rfl, rfl, rfl,
   fun _ h => get_serializer_invalid h, fun _ _ h => get_serializer_valid h⟩

theorem claim8_witness :
    validMediaType "gif" = false ∧ get_serializer "gif" = Option.none :=
  ⟨by decide, claim8_registry.2.2.2.2.2.2.2.2.2.2.2.1 "gif" (by decide)⟩

/-- Claim C6: an input that fails shape validation — in particular one with
an output whose media type is outside the eleven-member enumeration — makes
the write orchestrator abort with the validation error before any archive
is built or upload attempted: the error carries the blob store unchanged
and no manifest is returned. -/
theorem claim6_validation_aborts (loc : LocalResult) :
    (validateLocal loc = false →
      ∀ (task_id : String) (store : BlobStore) (do_upload : Bool),
        write_to_s3like task_id loc store do_upload = .error (.validationError, store)) ∧
    (∀ o : LocalOutput, (o ∈ loc.renderable ∨ o ∈ loc.downloadable) →
      validMediaType o.media_type = false → validateLocal loc = false) := by
  constructor
  · intro h task_id store up
    rw [write_to_s3like, if_neg (by simp [h])]
  · intro o ho hbad
    refine Bool.eq_false_iff.mpr fun hall => ?_
    have := List.all_eq_true.mp hall o (List.mem_append.mpr ho)
    rw [hbad] at this
    cases this

theorem claim6_witness :
    validMediaType "GIF" = false ∧
    validateLocal ⟨[⟨"x", "GIF", .str "s"⟩], []⟩ = false ∧
    write_to_s3like "t" ⟨[⟨"x", "GIF", .str "s"⟩], []⟩ [] true =
      .error (.validationError, []) :=
  ⟨by decide,
   (claim6_validation_aborts ⟨[⟨"x", "GIF", .str "s"⟩], []⟩).2 ⟨"x", "GIF", .str "s"⟩
     (Or.inl (by decide)) (by decide),
   (claim6_validation_aborts ⟨[⟨"x", "GIF", .str "s"⟩], []⟩).1 (by decide) "t" [] true⟩

/-- Claim C9: a successful upload-enabled write records the archive key
`<task_id>_<category>.zip` in each category's manifest entry, and the blob
store returned by the write holds exactly the built archive bytes under
each of those keys. -/
theorem claim9_archive_keys (task_id : String) (loc : LocalResult) (store : BlobStore)
    (rem : RemoteResult) (store' : BlobStore)
    (h : write_to_s3like task_id loc store true = .ok (rem, store')) :
    ∃ cr cd zr zd,
      rem = ⟨some cr, some cd⟩ ∧
      cr.ziplocation = task_id ++ "_renderable.zip" ∧
      cd.ziplocation = task_id ++ "_downloadable.zip" ∧
      buildCategory loc.renderable = .ok (zr, cr.outputs) ∧
      buildCategory loc.downloadable = .ok (zd, cd.outputs) ∧
      storeGet store' cr.ziplocation = some zr ∧
      storeGet store' cd.ziplocation = some zd := by
  revert h
  rw [write_to_s3like]
  by_cases hval : validateLocal loc = true
  case neg =>
    rw [if_neg hval]
    intro h
    exact Except.noConfusion h
  rw [if_pos hval]
  match hbr : buildCategory loc.renderable with
  | .error e =>
    intro h
    exact Except.noConfusion h
  | .ok (zr, outs_r) =>
    match hbd : buildCategory loc.downloadable with
    | .error e =>
      intro h
      exact Except.noConfusion h
    | .ok (zd, outs_d) =>
      intro h
      simp only [Except.ok.injEq, Prod.mk.injEq] at h
      obtain ⟨h1, h2⟩ := h
      subst h1 h2
      refine ⟨⟨outs_r, task_id ++ "_renderable.zip"⟩, ⟨outs_d, task_id ++ "_downloadable.zip"⟩,
        zr, zd, rfl, rfl, rfl, rfl, rfl, ?_, ?_⟩
      · simp only [if_true]
        rw [storeGet_put_other _ _ (ziplocations_ne task_id), storeGet_put_same]
      · simp only [if_true]
        rw [storeGet_put_same]

theorem claim9_witness :
    write_to_s3like "t1" ⟨[⟨"plot", "bokeh", .dict [("a", .int 1)]⟩], []⟩ [] true =
      .ok (⟨some ⟨[⟨"plot", "bokeh", "plot.json"⟩], "t1_renderable.zip"⟩,
            some ⟨[], "t1_downloadable.zip"⟩⟩,
           [("t1_renderable.zip", [("plot.json", .utf8 "\x7b\"a\": 1\x7d")]),
            ("t1_downloadable.zip", [])]) ∧
    ∃ cr cd zr zd,
      (⟨some ⟨[⟨"plot", "bokeh", "plot.json"⟩], "t1_renderable.zip"⟩,
        some ⟨[], "t1_downloadable.zip"⟩⟩ : RemoteResult) = ⟨some cr, some cd⟩ ∧
      cr.ziplocation = "t1" ++ "_renderable.zip" ∧
      cd.ziplocation = "t1" ++ "_downloadable.zip" ∧
      buildCategory [⟨"plot", "bokeh", .dict [("a", .int 1)]⟩] = .ok (zr, cr.outputs) ∧
      buildCategory [] = .ok (zd, cd.outputs) ∧
      storeGet [("t1_renderable.zip", [("plot.json", .utf8 "\x7b\"a\": 1\x7d")]),
        ("t1_downloadable.zip", [])] cr.ziplocation = some zr ∧
      storeGet [("t1_renderable.zip", [("plot.json", .utf8 "\x7b\"a\": 1\x7d")]),
        ("t1_downloadable.zip", [])] cd.ziplocation = some zd :=
  ⟨rfl, claim9_archive_keys "t1" ⟨[⟨"plot", "bokeh", .dict [("a", .int 1)]⟩], []⟩ [] _ _
    rfl⟩

/-- Claim C7: reading a valid manifest that points at an archive key absent
from the blob store raises the blob-not-found error and returns no partial
local result (the call evaluates to an error, so no outputs from any
category — including one processed before the failing one — are
returned): this holds when the missing key is the renderable category's,
and when the renderable category is absent or processed successfully and
the downloadable category's key is missing. -/
theorem claim7_blob_missing (rem : RemoteResult) (store : BlobStore)
    (hval : validateRemote rem = true) :
    (∀ c, rem.renderable = some c → storeGet store c.ziplocation = Option.none →
      read_from_s3like rem store = .error (.blobMissing c.ziplocation)) ∧
    (∀ c, rem.downloadable = some c → storeGet store c.ziplocation = Option.none →
      (rem.renderable = Option.none ∨
        ∃ c' os, rem.renderable = some c' ∧ readCategory store c' = .ok os) →
      read_from_s3like rem store = .error (.blobMissing c.ziplocation)) := by
  constructor
  · intro c hc hmiss
    rw [read_from_s3like, if_pos hval, hc]
    simp only [readCategory, hmiss]
  · intro c hc hmiss hr
    rw [read_from_s3like, if_pos hval]
    rcases hr with hr | ⟨c', os, hr, hok⟩
    · rw [hr, hc]
      simp only [readCategory, hmiss]
    · rw [hr, hc]
      simp only [hok]
      simp only [readCategory, hmiss]

theorem claim7_witness :
    validateRemote ⟨some ⟨[], "missing.zip"⟩, Option.none⟩ = true ∧
    read_from_s3like ⟨some ⟨[], "missing.zip"⟩, Option.none⟩ [] =
      .error (.blobMissing "missing.zip") :=
  ⟨rfl, (claim7_blob_missing ⟨some ⟨[], "missing.zip"⟩, Option.none⟩ [] rfl).1
    ⟨[], "missing.zip"⟩ rfl rfl⟩

/-- Success characterization of one read category: the archive was fetched
from the store at the recorded key and each manifest entry decoded, in
order, to an output carrying the entry's title and media type. -/
theorem readCategory_ok {store : BlobStore} {c : RemoteOutputCategory}
    {os : List LocalOutput} (h : readCategory store c = .ok os) :
    ∃ z, storeGet store c.ziplocation = some z ∧
      os.length = c.outputs.length ∧
      ∀ (i : Nat) (e : RemoteOutput), c.outputs[i]? = some e →
        ∃ o, os[i]? = some o ∧ readOutput z e = .ok o ∧
          o.title = e.title ∧ o.media_type = e.media_type := by
  rw [readCategory] at h
  cases hz : storeGet store c.ziplocation with
  | none =>
    rw [hz] at h
    exact Except.noConfusion h
  | some z =>
    simp only [hz] at h
    obtain ⟨hlen, hidx⟩ := readCategoryOutputs_ok h
    refine ⟨z, rfl, hlen, fun i e he => ?_⟩
    obtain ⟨o, ho, hro⟩ := hidx i e he
    obtain ⟨ht, hm⟩ := readOutput_fields hro
    exact ⟨o, ho, hro, ht, hm⟩

/-- A successful read call decomposes into a successful `readCategory` run
per present category, the absent ones yielding the empty list. -/
theorem read_ok_categories {rem : RemoteResult} {store : BlobStore} {res : LocalResult}
    (h : read_from_s3like rem store = .ok res) :
    (∀ c, rem.renderable = some c → readCategory store c = .ok res.renderable) ∧
    (rem.renderable = Option.none → res.renderable = []) ∧
    (∀ c, rem.downloadable = some c → readCategory store c = .ok res.downloadable) ∧
    (rem.downloadable = Option.none → res.downloadable = []) := by
  rw [read_from_s3like] at h
  by_cases hval : validateRemote rem = true
  case neg => rw [if_neg hval] at h; exact Except.noConfusion h
  rw [if_pos hval] at h
  cases hr : rem.renderable with
  | none =>
    simp only [hr] at h
    cases hd : rem.downloadable with
    | none =>
      simp only [hd, Except.ok.injEq] at h
      subst h
      exact ⟨fun c hc => Option.noConfusion hc, fun _ => rfl,
        fun c hc => Option.noConfusion hc, fun _ => rfl⟩
    | some cd =>
      simp only [hd] at h
      cases hrc : readCategory store cd with
      | error e =>
        rw [hrc] at h
        exact Except.noConfusion h
      | ok d =>
        rw [hrc] at h
        simp only [Except.ok.injEq] at h
        subst h
        refine ⟨fun c hc => Option.noConfusion hc, fun _ => rfl,
          fun c hc => ?_, fun hc => Option.noConfusion hc⟩
        obtain rfl := Option.some.inj hc
        exact hrc
  | some cr =>
    simp only [hr] at h
    cases hrc : readCategory store cr with
    | error e =>
      rw [hrc] at h
      exact Except.noConfusion h
    | ok r =>
      rw [hrc] at h
      cases hd : rem.downloadable with
      | none =>
        simp only [hd, Except.ok.injEq] at h
        subst h
        refine ⟨fun c hc => ?_, fun hc => Option.noConfusion hc,
          fun c hc => Option.noConfusion hc, fun _ => rfl⟩
        obtain rfl := Option.some.inj hc
        exact hrc
      | some cd =>
        simp only [hd] at h
        cases hrd : readCategory store cd with
        | error e =>
          rw [hrd] at h
          exact Except.noConfusion h
        | ok d =>
          rw [hrd] at h
          simp only [Except.ok.injEq] at h
          subst h
          refine ⟨fun c hc => ?_, fun hc => Option.noConfusion hc,
            fun c hc => ?_, fun hc => Option.noConfusion hc⟩
          · obtain rfl := Option.some.inj hc
            exact hrc
          · obtain rfl := Option.some.inj hc
            exact hrd

/-- Claim C10: a successful read returns a local result with exactly the
two fixed category fields: a category absent from the manifest maps to the
empty sequence, and a present one maps, in manifest-entry order, to the
outputs decoded from the archive fetched at the recorded key, each carrying
its entry's title and media type. -/
theorem claim10_read_categories (rem : RemoteResult) (store : BlobStore)
    (res : LocalResult) (h : read_from_s3like rem store = .ok res) :
    (rem.renderable = Option.none → res.renderable = []) ∧
    (∀ c, rem.renderable = some c → ∃ z, storeGet store c.ziplocation = some z ∧
      res.renderable.length = c.outputs.length ∧
      ∀ (i : Nat) (e : RemoteOutput), c.outputs[i]? = some e →
        ∃ o, res.renderable[i]? = some o ∧ readOutput z e = .ok o ∧
          o.title = e.title ∧ o.media_type = e.media_type) ∧
    (rem.downloadable = Option.none → res.downloadable = []) ∧
    (∀ c, rem.downloadable = some c → ∃ z, storeGet store c.ziplocation = some z ∧
      res.downloadable.length = c.outputs.length ∧
      ∀ (i : Nat) (e : RemoteOutput), c.outputs[i]? = some e →
        ∃ o, res.downloadable[i]? = some o ∧ readOutput z e = .ok o ∧
          o.title = e.title ∧ o.media_type = e.media_type) := by
  obtain ⟨hrs, hrn, hds, hdn⟩ := read_ok_categories h
  exact ⟨hrn, fun c hc => readCategory_ok (hrs c hc), hdn,
    fun c hc => readCategory_ok (hds c hc)⟩

theorem claim10_witness :
    read_from_s3like ⟨some ⟨[⟨"plot", "bokeh", "plot.json"⟩], "k.zip"⟩, Option.none⟩
        [("k.zip", [("plot.json", .utf8 "\x7b\"a\": 1\x7d")])] =
      .ok ⟨[⟨"plot", "bokeh", .dict [("a", .int 1)]⟩], []⟩ ∧
    (⟨[⟨"plot", "bokeh", .dict [("a", .int 1)]⟩], []⟩ : LocalResult).downloadable = [] :=
  ⟨rfl, (claim10_read_categories ⟨some ⟨[⟨"plot", "bokeh", "plot.json"⟩], "k.zip"⟩, Option.none⟩
      [("k.zip", [("plot.json", .utf8 "\x7b\"a\": 1\x7d")])]
      ⟨[⟨"plot", "bokeh", .dict [("a", .int 1)]⟩], []⟩ rfl).2.2.1 rfl⟩

/-- Claim C4 (amended): a successful build of a category with N outputs
yields exactly N manifest entries, in input order, each carrying the
input's title and media type and the computed member filename; the entry
filenames are the computed filenames of the inputs, so they are pairwise
distinct whenever the computed filenames of the inputs are (unconditional
distinctness fails: two outputs with equal titles and media types yield
equal entry filenames). -/
theorem claim4_manifest {outputs : List LocalOutput} {z : ZipArchive}
    {entries : List RemoteOutput} (h : buildCategory outputs = .ok (z, entries)) :
    entries.length = outputs.length ∧
    (∀ (i : Nat) (o : LocalOutput), outputs[i]? = some o →
      entries[i]? = some ⟨o.title, o.media_type, outputFilename o⟩) ∧
    entries.map RemoteOutput.filename = outputs.map outputFilename ∧
    ((outputs.map outputFilename).Nodup → (entries.map RemoteOutput.filename).Nodup) := by
  obtain ⟨hlen, hzlen, hidx⟩ := buildCategory_ok h
  have hfn : ∀ (i : Nat) (o : LocalOutput), outputs[i]? = some o →
      entries[i]? = some ⟨o.title, o.media_type, outputFilename o⟩ := by
    intro i o hi
    obtain ⟨s, b, hg, hpo, hent, hzi⟩ := hidx i o hi
    have hext : outputExt o = s.ext := by simp only [outputExt, hg]
    rw [hent, outputFilename, hext]
  have hmap : entries.map RemoteOutput.filename = outputs.map outputFilename := by
    refine List.ext_getElem? fun n => ?_
    rw [List.getElem?_map, List.getElem?_map]
    cases hn : outputs[n]? with
    | none =>
      have hnl : outputs.length ≤ n := by
        by_contra hlt
        push_neg at hlt
        rw [List.getElem?_eq_getElem hlt] at hn
        exact Option.noConfusion hn
      rw [List.getElem?_eq_none (by rw [hlen]; exact hnl)]
      rfl
    | some o =>
      rw [hfn n o hn, Option.map_some', Option.map_some']
  exact ⟨hlen, hfn, hmap, fun hnd => by rw [hmap]; exact hnd⟩

theorem claim4_counterexample :
    buildCategory [⟨"a", "CSV", .str "x"⟩, ⟨"a", "CSV", .str "y"⟩] =
      .ok ([("a.csv", .utf8 "x"), ("a.csv", .utf8 "y")],
           [⟨"a", "CSV", "a.csv"⟩, ⟨"a", "CSV", "a.csv"⟩]) ∧
    ¬ (([⟨"a", "CSV", "a.csv"⟩, ⟨"a", "CSV", "a.csv"⟩] :
        List RemoteOutput).map RemoteOutput.filename).Nodup :=
  ⟨rfl, by decide⟩

theorem claim4_witness :
    buildCategory [⟨"r", "CSV", .str "x"⟩] =
      .ok ([("r.csv", .utf8 "x")], [⟨"r", "CSV", "r.csv"⟩]) ∧
    ([⟨"r", "CSV", "r.csv"⟩] : List RemoteOutput).length =
      ([⟨"r", "CSV", .str "x"⟩] : List LocalOutput).length ∧
    (([⟨"r", "CSV", "r.csv"⟩] : List RemoteOutput).map RemoteOutput.filename).Nodup := by
  obtain ⟨hlen, -, -, hnd⟩ :=
    @claim4_manifest [⟨"r", "CSV", .str "x"⟩] [("r.csv", .utf8 "x")]
      [⟨"r", "CSV", "r.csv"⟩] rfl
  exact ⟨rfl, hlen, hnd (by decide)⟩

/-- Claim C5: over outputs whose media types are registered and whose data
the serializers support, a category build never fails on duplicate
computed filenames: the manifest keeps one entry per input in input order,
and reading any entry back from the built archive decodes the data of the
last output whose computed filename matches that entry's (last write
wins under the zip name resolution). -/
theorem claim5_duplicate_filenames (outputs : List LocalOutput)
    (hall : ∀ o ∈ outputs, goodOutput o = true) :
    ∃ z entries, buildCategory outputs = .ok (z, entries) ∧
      entries.length = outputs.length ∧
      ∀ (i : Nat) (o : LocalOutput), outputs[i]? = some o →
        ∃ oLast, (outputs.filter fun o' => outputFilename o' == outputFilename o).getLast? =
            some oLast ∧
          entries[i]? = some ⟨o.title, o.media_type, outputFilename o⟩ ∧
          readOutput z ⟨o.title, o.media_type, outputFilename o⟩ =
            .ok ⟨o.title, o.media_type, oLast.data⟩ := by
  refine ⟨outputs.map fun o => (outputFilename o, outputContent o),
    outputs.map fun o => ⟨o.title, o.media_type, outputFilename o⟩,
    buildCategory_of_good outputs hall, List.length_map _ _, fun i o hi => ?_⟩
  have ho : o ∈ outputs := List.getElem?_mem hi
  have hne : outputs.filter (fun o' => outputFilename o' == outputFilename o) ≠ [] :=
    List.ne_nil_of_mem (List.mem_filter.mpr ⟨ho, beq_self_eq_true _⟩)
  refine ⟨(outputs.filter fun o' => outputFilename o' == outputFilename o).getLast hne,
    List.getLast?_eq_getLast _ hne, ?_, ?_⟩
  · rw [List.getElem?_map, hi, Option.map_some']
  · exact readOutput_last ho hall (List.getLast?_eq_getLast _ hne)

theorem claim5_witness :
    (∀ o ∈ ([⟨"a", "CSV", .str "x"⟩, ⟨"a", "CSV", .str "y"⟩] : List LocalOutput),
      goodOutput o = true) ∧
    ∃ z entries,
      buildCategory [⟨"a", "CSV", .str "x"⟩, ⟨"a", "CSV", .str "y"⟩] = .ok (z, entries) ∧
      entries.length = 2 ∧
      ∃ oLast,
        (([⟨"a", "CSV", .str "x"⟩, ⟨"a", "CSV", .str "y"⟩] : List LocalOutput).filter
            fun o' => outputFilename o' == outputFilename ⟨"a", "CSV", .str "x"⟩).getLast? =
          some oLast ∧
        entries[0]? = some ⟨"a", "CSV", outputFilename ⟨"a", "CSV", .str "x"⟩⟩ ∧
        readOutput z ⟨"a", "CSV", outputFilename ⟨"a", "CSV", .str "x"⟩⟩ =
          .ok ⟨"a", "CSV", oLast.data⟩ := by
  refine ⟨by decide, ?_⟩
  obtain ⟨z, entries, hb, hlen, hidx⟩ :=
    claim5_duplicate_filenames [⟨"a", "CSV", .str "x"⟩, ⟨"a", "CSV", .str "y"⟩] (by decide)
  obtain ⟨oLast, hlast, hent, hread⟩ := hidx 0 ⟨"a", "CSV", .str "x"⟩ rfl
  exact ⟨z, entries, hb, hlen.trans rfl, oLast, hlast, hent, hread⟩

/-- Evaluation form of one read category from known store and loop results. -/
theorem readCategory_eval {store : BlobStore} {c : RemoteOutputCategory} {z : ZipArchive}
    {os : List LocalOutput} (hz : storeGet store c.ziplocation = some z)
    (hro : readCategoryOutputs z c.outputs = .ok os) :
    readCategory store c = .ok os := by
  simp only [readCategory, hz]
  exact hro

/-- Assembly of a successful read call from its two category runs. -/
theorem read_ok_of_categories {rem : RemoteResult} {store : BlobStore}
    {cr cd : RemoteOutputCategory} {r d : List LocalOutput}
    (hre : rem.renderable = some cr) (hde : rem.downloadable = some cd)
    (hval : validateRemote rem = true)
    (h1 : readCategory store cr = .ok r) (h2 : readCategory store cd = .ok d) :
    read_from_s3like rem store = .ok ⟨r, d⟩ := by
  rw [read_from_s3like, if_pos hval, hre, hde]
  simp only [h1, h2]

/-- Claim C1 (amended): for every local result whose outputs have
registered media types and data in their serializers' supported value
spaces, and whose computed member filenames are pairwise distinct within
each category, writing and then reading back the produced manifest over
the stored blobs returns the original local result (without the
distinctness hypotheses the round trip fails: duplicate titles make every
duplicate entry decode to the last written data). -/
theorem claim1_roundtrip (task_id : String) (loc : LocalResult) (store : BlobStore)
    (hgr : ∀ o ∈ loc.renderable, goodOutput o = true)
    (hgd : ∀ o ∈ loc.downloadable, goodOutput o = true)
    (hndr : (loc.renderable.map outputFilename).Nodup)
    (hndd : (loc.downloadable.map outputFilename).Nodup) :
    ∃ rem store', write_to_s3like task_id loc store true = .ok (rem, store') ∧
      read_from_s3like rem store' = .ok loc := by
  refine ⟨_, _, write_ok_of_good hgr hgd, ?_⟩
  have hvr : validateRemote
      ⟨some ⟨loc.renderable.map fun o => ⟨o.title, o.media_type, outputFilename o⟩,
          task_id ++ "_renderable.zip"⟩,
        some ⟨loc.downloadable.map fun o => ⟨o.title, o.media_type, outputFilename o⟩,
          task_id ++ "_downloadable.zip"⟩⟩ = true := by
    simp only [validateRemote, Bool.and_eq_true]
    exact ⟨validateCategory_map hgr, validateCategory_map hgd⟩
  have hz1 : storeGet
      (storePut (storePut store (task_id ++ "_renderable.zip")
          (loc.renderable.map fun o => (outputFilename o, outputContent o)))
        (task_id ++ "_downloadable.zip")
        (loc.downloadable.map fun o => (outputFilename o, outputContent o)))
      (task_id ++ "_renderable.zip") =
      some (loc.renderable.map fun o => (outputFilename o, outputContent o)) := by
    rw [storeGet_put_other _ _ (ziplocations_ne task_id), storeGet_put_same]
  have hz2 : storeGet
      (storePut (storePut store (task_id ++ "_renderable.zip")
          (loc.renderable.map fun o => (outputFilename o, outputContent o)))
        (task_id ++ "_downloadable.zip")
        (loc.downloadable.map fun o => (outputFilename o, outputContent o)))
      (task_id ++ "_downloadable.zip") =
      some (loc.downloadable.map fun o => (outputFilename o, outputContent o)) := by
    rw [storeGet_put_same]
  exact read_ok_of_categories rfl rfl hvr
    (readCategory_eval hz1 (readCategoryOutputs_map fun o ho => readOutput_good ho hgr hndr))
    (readCategory_eval hz2 (readCategoryOutputs_map fun o ho => readOutput_good ho hgd hndd))

theorem claim1_counterexample :
    (∀ o ∈ ([⟨"p", "bokeh", .dict [("a", .int 1)]⟩,
             ⟨"p", "bokeh", .dict [("a", .int 2)]⟩] : List LocalOutput),
      goodOutput o = true) ∧
    write_to_s3like "t1" ⟨[⟨"p", "bokeh", .dict [("a", .int 1)]⟩,
        ⟨"p", "bokeh", .dict [("a", .int 2)]⟩], []⟩ [] true =
      .ok (⟨some ⟨[⟨"p", "bokeh", "p.json"⟩, ⟨"p", "bokeh", "p.json"⟩],
              "t1_renderable.zip"⟩,
            some ⟨[], "t1_downloadable.zip"⟩⟩,
           [("t1_renderable.zip",
             [("p.json", .utf8 "\x7b\"a\": 1\x7d"), ("p.json", .utf8 "\x7b\"a\": 2\x7d")]),
            ("t1_downloadable.zip", [])]) ∧
    read_from_s3like
      ⟨some ⟨[⟨"p", "bokeh", "p.json"⟩, ⟨"p", "bokeh", "p.json"⟩], "t1_renderable.zip"⟩,
        some ⟨[], "t1_downloadable.zip"⟩⟩
      [("t1_renderable.zip",
        [("p.json", .utf8 "\x7b\"a\": 1\x7d"), ("p.json", .utf8 "\x7b\"a\": 2\x7d")]),
       ("t1_downloadable.zip", [])] =
      .ok ⟨[⟨"p", "bokeh", .dict [("a", .int 2)]⟩, ⟨"p", "bokeh", .dict [("a", .int 2)]⟩], []⟩ ∧
    (⟨[⟨"p", "bokeh", .dict [("a", .int 2)]⟩, ⟨"p", "bokeh", .dict [("a", .int 2)]⟩], []⟩ :
        LocalResult) ≠
      ⟨[⟨"p", "bokeh", .dict [("a", .int 1)]⟩, ⟨"p", "bokeh", .dict [("a", .int 2)]⟩], []⟩ :=
  ⟨by decide, rfl, rfl, by decide⟩

theorem claim1_witness :
    (∀ o ∈ ([⟨"plot", "bokeh", .dict [("a", .int 1)]⟩] : List LocalOutput),
      goodOutput o = true) ∧
    (([⟨"plot", "bokeh", .dict [("a", .int 1)]⟩] : List LocalOutput).map outputFilename).Nodup ∧
    ∃ rem store',
      write_to_s3like "t1" ⟨[⟨"plot", "bokeh", .dict [("a", .int 1)]⟩], []⟩ [] true =
        .ok (rem, store') ∧
      read_from_s3like rem store' = .ok ⟨[⟨"plot", "bokeh", .dict [("a", .int 1)]⟩], []⟩ :=
  ⟨by decide, by decide,
   claim1_roundtrip "t1" ⟨[⟨"plot", "bokeh", .dict [("a", .int 1)]⟩], []⟩ []
     (by decide) (by decide) (by decide) (by decide)⟩
